import Mathlib

/-!
Verification development for the text-editing engine behind the tscript
IDE editor (`src/ide/editor/editor.ts` together with the document /
action / iterator core it drives).  Buffers are sequences of Unicode
code points, modelled as `List Nat` (10 = newline, 9 = tab, 32 = space).
-/

namespace TextDoc

/-! ### Line structure of a buffer -/

/-- Modelled from the spec: the document core (`document.ts`) keeps a
derived line-start index; we model the line structure by splitting the
buffer at newline code points (10).  `splitLines` returns the first
line and the remaining lines; a trailing newline yields a final empty
line. -/
def splitLines : List Nat → List Nat × List (List Nat)
  | [] => ([], [])
  | c :: r =>
    let p := splitLines r
    if c = 10 then ([], p.1 :: p.2) else (c :: p.1, p.2)

/-- All lines of a buffer, in order.  Always nonempty. -/
def lines (b : List Nat) : List (List Nat) := (splitLines b).1 :: (splitLines b).2

/-- Join a nonempty family of lines, head plus tail, with newline
separators. -/
def joinAux (hd : List Nat) : List (List Nat) → List Nat
  | [] => hd
  | l :: ls => hd ++ 10 :: joinAux l ls

/-- Join lines with newline separators (left inverse of `lines`). -/
def joinLines : List (List Nat) → List Nat
  | [] => []
  | l :: ls => joinAux l ls

theorem joinAux_splitLines (b : List Nat) :
    joinAux (splitLines b).1 (splitLines b).2 = b := by
  induction b with
  | nil => rfl
  | cons c r ih =>
    by_cases hc : c = 10
    · subst hc
      simp only [splitLines]
      cases h : splitLines r with
      | mk hd tl =>
        simp only [if_pos rfl, joinAux]
        rw [h] at ih
        simp only at ih
        simp [ih]
    · simp only [splitLines, if_neg hc]
      cases h : splitLines r with
      | mk hd tl =>
        rw [h] at ih
        simp only at ih
        cases tl with
        | nil => simpa [joinAux] using congrArg (c :: ·) ih
        | cons l ls =>
          simp only [joinAux] at ih ⊢
          rw [List.cons_append, ih]

theorem joinLines_lines (b : List Nat) : joinLines (lines b) = b := by
  simpa [lines, joinLines] using joinAux_splitLines b

theorem splitLines_no_newline (b : List Nat) :
    10 ∉ (splitLines b).1 ∧ ∀ l ∈ (splitLines b).2, 10 ∉ l := by
  induction b with
  | nil => simp [splitLines]
  | cons c r ih =>
    by_cases hc : c = 10
    · subst hc
      simp only [splitLines, if_pos rfl]
      refine ⟨by simp, ?_⟩
      intro l hl
      rcases List.mem_cons.1 hl with h | h
      · exact h ▸ ih.1
      · exact ih.2 l h
    · simp only [splitLines, if_neg hc]
      refine ⟨?_, ih.2⟩
      intro hmem
      rcases List.mem_cons.1 hmem with h | h
      · exact hc h.symm
      · exact ih.1 h

theorem lines_no_newline (b : List Nat) : ∀ l ∈ lines b, 10 ∉ l := by
  intro l hl
  rcases List.mem_cons.1 hl with h | h
  · exact h ▸ (splitLines_no_newline b).1
  · exact (splitLines_no_newline b).2 l h

theorem splitLines_no_newline_self (l : List Nat) (h : 10 ∉ l) :
    splitLines l = (l, []) := by
  induction l with
  | nil => rfl
  | cons c r ih =>
    have hc : c ≠ 10 := fun hc => h (hc ▸ List.mem_cons_self c r)
    have hr : 10 ∉ r := fun hr => h (List.mem_cons_of_mem c hr)
    simp [splitLines, if_neg hc, ih hr]

theorem splitLines_append_newline (hd rest : List Nat) (h : 10 ∉ hd) :
    splitLines (hd ++ 10 :: rest) =
      (hd, (splitLines rest).1 :: (splitLines rest).2) := by
  induction hd with
  | nil => simp [splitLines]
  | cons c r ih =>
    have hc : c ≠ 10 := fun hc => h (hc ▸ List.mem_cons_self c r)
    have hr : 10 ∉ r := fun hr => h (List.mem_cons_of_mem c hr)
    simp [splitLines, if_neg hc, ih hr]

theorem splitLines_joinAux (hd : List Nat) (tl : List (List Nat))
    (h1 : 10 ∉ hd) (h2 : ∀ l ∈ tl, 10 ∉ l) :
    splitLines (joinAux hd tl) = (hd, tl) := by
  induction tl generalizing hd with
  | nil => simpa [joinAux] using splitLines_no_newline_self hd h1
  | cons l ls ih =>
    have hl : 10 ∉ l := h2 l (List.mem_cons_self l ls)
    have hls : ∀ x ∈ ls, 10 ∉ x := fun x hx => h2 x (List.mem_cons_of_mem l hx)
    simp only [joinAux]
    rw [splitLines_append_newline hd (joinAux l ls) h1, ih l hl hls]

/-- The lines of a joined nonempty, newline-free family are that family. -/
theorem lines_joinLines (hd : List Nat) (tl : List (List Nat))
    (h1 : 10 ∉ hd) (h2 : ∀ l ∈ tl, 10 ∉ l) :
    lines (joinLines (hd :: tl)) = hd :: tl := by
  simp [lines, joinLines, splitLines_joinAux hd tl h1 h2]

/-! ### Per-line transformations over a line range

The line-based actions (Indent, Unindent, Comment, Uncomment) transform
every line whose index lies in a half-open range `[b, e)`.  `mapIdx`
applies a transformation, `collectIdx` collects a captured value per
in-range line (used for the removed indentation / comment markers), and
`restoreIdx` re-prepends the captured prefixes. -/

def mapIdx (f : List Nat → List Nat) (b e : Nat) : Nat → List (List Nat) → List (List Nat)
  | _, [] => []
  | i, l :: ls => (if b ≤ i ∧ i < e then f l else l) :: mapIdx f b e (i + 1) ls

def collectIdx (f : List Nat → List Nat) (b e : Nat) : Nat → List (List Nat) → List (List Nat)
  | _, [] => []
  | i, l :: ls =>
    if b ≤ i ∧ i < e then f l :: collectIdx f b e (i + 1) ls
    else collectIdx f b e (i + 1) ls

def restoreIdx (b e : Nat) : Nat → List (List Nat) → List (List Nat) → List (List Nat)
  | _, _, [] => []
  | i, ps, l :: ls =>
    if b ≤ i ∧ i < e then
      match ps with
      | [] => l :: restoreIdx b e (i + 1) [] ls
      | p :: ps' => (p ++ l) :: restoreIdx b e (i + 1) ps' ls
    else l :: restoreIdx b e (i + 1) ps ls

theorem mapIdx_mapIdx (f g : List Nat → List Nat) (b e : Nat) :
    ∀ (i : Nat) (ls : List (List Nat)),
      mapIdx f b e i (mapIdx g b e i ls) = mapIdx (fun l => f (g l)) b e i ls := by
  intro i ls
  induction ls generalizing i with
  | nil => rfl
  | cons l ls ih =>
    by_cases h : b ≤ i ∧ i < e <;> simp [mapIdx, h, ih]

theorem mapIdx_congr_id (h : List Nat → List Nat) (hid : ∀ l, h l = l) (b e : Nat) :
    ∀ (i : Nat) (ls : List (List Nat)), mapIdx h b e i ls = ls := by
  intro i ls
  induction ls generalizing i with
  | nil => rfl
  | cons l ls ih =>
    by_cases hc : b ≤ i ∧ i < e <;> simp [mapIdx, hc, hid, ih]

theorem mapIdx_no_newline (f : List Nat → List Nat)
    (hf : ∀ l, 10 ∉ l → 10 ∉ f l) (b e : Nat) :
    ∀ (i : Nat) (ls : List (List Nat)), (∀ l ∈ ls, 10 ∉ l) →
      ∀ l ∈ mapIdx f b e i ls, 10 ∉ l := by
  intro i ls
  induction ls generalizing i with
  | nil => intro _ l hl; cases hl
  | cons l ls ih =>
    intro hall x hx
    have hl : 10 ∉ l := hall l (List.mem_cons_self l ls)
    have hls : ∀ y ∈ ls, 10 ∉ y := fun y hy => hall y (List.mem_cons_of_mem l hy)
    by_cases hc : b ≤ i ∧ i < e
    · simp only [mapIdx, if_pos hc] at hx
      rcases List.mem_cons.1 hx with h | h
      · exact h ▸ hf l hl
      · exact ih (i + 1) hls x h
    · simp only [mapIdx, if_neg hc] at hx
      rcases List.mem_cons.1 hx with h | h
      · exact h ▸ hl
      · exact ih (i + 1) hls x h

theorem mapIdx_ne_nil (f : List Nat → List Nat) (b e i : Nat)
    (ls : List (List Nat)) (h : ls ≠ []) : mapIdx f b e i ls ≠ [] := by
  cases ls with
  | nil => exact absurd rfl h
  | cons l ls => simp [mapIdx]

/-- Restoring the collected per-line prefixes after stripping them
rebuilds the original lines, provided prefix and remainder recombine to
the original line. -/
theorem restoreIdx_collectIdx
    (pf rf : List Nat → List Nat) (hsplit : ∀ l, pf l ++ rf l = l) (b e : Nat) :
    ∀ (i : Nat) (ls : List (List Nat)),
      restoreIdx b e i (collectIdx pf b e i ls) (mapIdx rf b e i ls) = ls := by
  intro i ls
  induction ls generalizing i with
  | nil => rfl
  | cons l ls ih =>
    by_cases h : b ≤ i ∧ i < e
    · simp [mapIdx, collectIdx, restoreIdx, h, hsplit, ih]
    · simp [mapIdx, collectIdx, restoreIdx, h, ih]

/-! ### Generic list helpers -/

theorem take_append_plus (P b : List Nat) (m : Nat) :
    (P ++ b).take (P.length + m) = P ++ b.take m := by
  induction P with
  | nil => simp
  | cons c P ih => simp [List.take_succ_cons, Nat.succ_add, ih]

theorem drop_append_plus (P b : List Nat) (m : Nat) :
    (P ++ b).drop (P.length + m) = b.drop m := by
  induction P with
  | nil => simp
  | cons c P ih => simp [List.drop_succ_cons, Nat.succ_add, ih]

theorem take_append_self (P b : List Nat) : (P ++ b).take P.length = P := by
  have h := take_append_plus P b 0
  simp only [Nat.add_zero, List.take_zero, List.append_nil] at h
  exact h

theorem drop_append_self (P b : List Nat) : (P ++ b).drop P.length = b := by
  have h := drop_append_plus P b 0
  simp only [Nat.add_zero, List.drop_zero] at h
  exact h

/-! ### Position index / Iterator

Modelled from the spec (`iterators.ts` is not part of the excerpted
sources): an Iterator translates absolute offsets to (row, column)
coordinates and back.  `setCoordinates` clamps the row to
`[0, height - 1]` and the column to the length of that row. -/

/-- Row of an absolute offset: number of newlines among the first `p`
code points. -/
def rowOf : List Nat → Nat → Nat
  | _, 0 => 0
  | [], _ + 1 => 0
  | c :: b, p + 1 => (if c = 10 then 1 else 0) + rowOf b p

/-- Absolute offset at which row `r` starts. -/
def lineStart : List Nat → Nat → Nat
  | _, 0 => 0
  | [], _ + 1 => 0
  | c :: b, r + 1 => if c = 10 then 1 + lineStart b r else 1 + lineStart b (r + 1)

/-- Number of code points in row `r` (newline excluded). -/
def lineLen : List Nat → Nat → Nat
  | [], _ => 0
  | c :: b, 0 => if c = 10 then 0 else 1 + lineLen b 0
  | c :: b, r + 1 => if c = 10 then lineLen b r else lineLen b (r + 1)

/-- Number of newline code points in a buffer. -/
def countNL : List Nat → Nat
  | [] => 0
  | c :: b => (if c = 10 then 1 else 0) + countNL b

/-- Number of lines of a buffer (`Document.height()`). -/
def heightB (b : List Nat) : Nat := 1 + countNL b

/-- Column of an absolute offset. -/
def colOf (b : List Nat) (p : Nat) : Nat := p - lineStart b (rowOf b p)

/-- Iterator state: absolute position plus cached row/column. -/
structure Iterator where
  pos : Nat
  row : Nat
  col : Nat
deriving DecidableEq

/-- Modelled from the spec: `Iterator.setPosition(offset)` computes the
cached row and column from the derived line-start index. -/
def setPosition (b : List Nat) (p : Nat) : Iterator :=
  { pos := p, row := rowOf b p, col := colOf b p }

/-- Modelled from the spec: `Iterator.setCoordinates(row, col)` clamps
`row` to `[0, height - 1]` and `col` to the length of that row, then
derives the absolute position from the line-start index. -/
def setCoordinates (b : List Nat) (r c : Nat) : Iterator :=
  let r' := min r (heightB b - 1)
  let c' := min c (lineLen b r')
  { pos := lineStart b r' + c', row := r', col := c' }

theorem heightB_cons (c : Nat) (b : List Nat) :
    heightB (c :: b) = (if c = 10 then 1 else 0) + heightB b := by
  simp only [heightB, countNL]
  omega

theorem rowOf_le_height (b : List Nat) (p : Nat) : rowOf b p ≤ heightB b - 1 := by
  induction b generalizing p with
  | nil =>
    cases p with
    | zero => simp [rowOf, heightB]
    | succ p => simp [rowOf, heightB]
  | cons c b ih =>
    cases p with
    | zero => simp [rowOf]
    | succ p =>
      have hhb : 1 ≤ heightB b := Nat.le_add_right 1 _
      have := ih p
      rw [heightB_cons]
      by_cases hc : c = 10
      · simp only [rowOf, if_pos hc, hc, if_pos rfl]
        omega
      · simp only [rowOf, if_neg hc, if_neg hc]
        omega

theorem lineStart_le_of_rowOf (b : List Nat) (p : Nat) (hp : p ≤ b.length) :
    lineStart b (rowOf b p) ≤ p ∧
      p - lineStart b (rowOf b p) ≤ lineLen b (rowOf b p) := by
  induction b generalizing p with
  | nil =>
    have hp0 : p = 0 := by simpa using hp
    subst hp0
    simp [rowOf, lineStart, lineLen]
  | cons c b ih =>
    cases p with
    | zero =>
      refine ⟨Nat.zero_le _, ?_⟩
      simp [rowOf, lineStart]
    | succ p =>
      have hp' : p ≤ b.length := by simpa using hp
      have ihp := ih p hp'
      by_cases hc : c = 10
      · have hrow : rowOf (c :: b) (p + 1) = rowOf b p + 1 := by
          simp [rowOf, if_pos hc, Nat.add_comm]
        have hstart : lineStart (c :: b) (rowOf b p + 1) = 1 + lineStart b (rowOf b p) := by
          simp [lineStart, if_pos hc]
        have hlen : lineLen (c :: b) (rowOf b p + 1) = lineLen b (rowOf b p) := by
          simp [lineLen, if_pos hc]
        rw [hrow, hstart, hlen]
        omega
      · have hrow : rowOf (c :: b) (p + 1) = rowOf b p := by
          simp [rowOf, if_neg hc]
        rw [hrow]
        cases hr : rowOf b p with
        | zero =>
          have hstart : lineStart (c :: b) 0 = 0 := rfl
          have hlen : lineLen (c :: b) 0 = 1 + lineLen b 0 := by
            simp [lineLen, if_neg hc]
          rw [hstart, hlen]
          rw [hr] at ihp
          have h0 : lineStart b 0 = 0 := by cases b <;> rfl
          rw [h0] at ihp
          omega
        | succ s =>
          have hstart : lineStart (c :: b) (s + 1) = 1 + lineStart b (s + 1) := by
            simp [lineStart, if_neg hc]
          have hlen : lineLen (c :: b) (s + 1) = lineLen b (s + 1) := by
            simp [lineLen, if_neg hc]
          rw [hstart, hlen]
          rw [hr] at ihp
          omega

/-- Coordinate round trip: translating a valid offset to (row, col) and
back yields the same offset, with no clamping taking effect. -/
theorem setCoordinates_setPosition (b : List Nat) (p : Nat) (hp : p ≤ b.length) :
    setCoordinates b (setPosition b p).row (setPosition b p).col =
      setPosition b p := by
  have hrow := rowOf_le_height b p
  have hcol := lineStart_le_of_rowOf b p hp
  simp only [setPosition, setCoordinates, colOf]
  have h1 : min (rowOf b p) (heightB b - 1) = rowOf b p := Nat.min_eq_left hrow
  rw [h1]
  have h2 : min (p - lineStart b (rowOf b p)) (lineLen b (rowOf b p)) =
      p - lineStart b (rowOf b p) := Nat.min_eq_left hcol.2
  rw [h2]
  have h3 : lineStart b (rowOf b p) + (p - lineStart b (rowOf b p)) = p := by
    omega
  simp [h3]

/-! ### Multi-position replacement (ReplaceAll)

Modelled from the spec: ReplaceAll applies the same fixed-length removal
plus fixed replacement text at a precomputed list of disjoint, ascending
absolute offsets in one undoable step; the implementation translates
each subsequent offset by the cumulative length delta of the prior
replacements within the same action. -/

/-- One fixed-length replacement at an (already translated) offset. -/
def raStepBuf (b : List Nat) (q klen : Nat) (repl : List Nat) : List Nat :=
  b.take q ++ repl ++ b.drop (q + klen)

/-- Forward application: walk the precomputed offsets left to right,
carrying the cumulative length delta `d` of the replacements already
performed, and replace `klen` code points by `repl` at each translated
offset. -/
def raApply (klen : Nat) (repl : List Nat) : List Nat → Int → List Nat → List Nat
  | [], _, b => b
  | p :: ps, d, b =>
    raApply klen repl ps (d + repl.length - klen)
      (raStepBuf b ((p + d).toNat) klen repl)

/-- Inverse application: restore the captured removed text at the
original offsets, left to right, replacing `rlen` (the replacement
length) code points each time. -/
def raInv (rlen : Nat) : List (Nat × List Nat) → List Nat → List Nat
  | [], b => b
  | (p, rem) :: prs, b => raInv rlen prs (b.take p ++ rem ++ b.drop (p + rlen))

/-- Segment-structured restatement of the forward application, used only
inside the inversion proof.  `base` is the absolute offset at which the
remaining buffer suffix `b` starts. -/
def raSeg (klen : Nat) (repl : List Nat) : Nat → List Nat → List Nat → List Nat
  | _, [], b => b
  | base, p :: ps, b =>
    b.take (p - base) ++ repl ++
      raSeg klen repl (p + klen) ps (b.drop (p - base + klen))

/-- Offsets are ascending, pairwise separated by at least the removal
length, and stay (removal included) inside a buffer of `n` code points. -/
def raValidB (klen : Nat) : Nat → List Nat → Nat → Bool
  | _, [], _ => true
  | lo, p :: ps, n =>
    decide (lo ≤ p) && decide (p + klen ≤ n) && raValidB klen (p + klen) ps n

theorem raApply_eq_raSeg (klen : Nat) (repl : List Nat) (ps : List Nat) :
    ∀ (base : Nat) (d : Int) (P b : List Nat),
      (P.length : Int) = (base : Int) + d →
      raValidB klen base ps (base + b.length) = true →
      raApply klen repl ps d (P ++ b) = P ++ raSeg klen repl base ps b := by
  induction ps with
  | nil => intro base d P b _ _; rfl
  | cons p ps ih =>
    intro base d P b hP hv
    simp only [raValidB, Bool.and_eq_true, decide_eq_true_eq] at hv
    obtain ⟨⟨hlo, hin⟩, hv'⟩ := hv
    have hpb : p - base ≤ b.length := by omega
    have hq : ((p : Int) + d).toNat = P.length + (p - base) := by omega
    have hstep :
        raStepBuf (P ++ b) (((p : Int) + d).toNat) klen repl =
          (P ++ b.take (p - base) ++ repl) ++ b.drop (p - base + klen) := by
      simp only [raStepBuf, hq]
      rw [take_append_plus, Nat.add_assoc, drop_append_plus]
    simp only [raApply, hstep]
    have hlen : ((P ++ b.take (p - base) ++ repl).length : Int) =
        ((p + klen : Nat) : Int) + (d + repl.length - klen) := by
      have htl : (b.take (p - base)).length = p - base := by
        simp only [List.length_take]
        omega
      simp only [List.length_append, htl]
      omega
    have hvnext : raValidB klen (p + klen) ps
        ((p + klen) + (b.drop (p - base + klen)).length) = true := by
      have heq : (p + klen) + (b.drop (p - base + klen)).length = base + b.length := by
        simp only [List.length_drop]
        omega
      rw [heq]
      exact hv'
    rw [ih (p + klen) (d + repl.length - klen) _ _ hlen hvnext]
    simp [raSeg, List.append_assoc]

theorem raInv_raSeg (klen : Nat) (repl : List Nat) (ps : List Nat) :
    ∀ (P b : List Nat),
      raValidB klen P.length ps (P.length + b.length) = true →
      raInv repl.length
        (ps.zip (ps.map (fun p => ((P ++ b).drop p).take klen)))
        (P ++ raSeg klen repl P.length ps b) = P ++ b := by
  induction ps with
  | nil => intro P b _; rfl
  | cons p ps ih =>
    intro P b hv
    simp only [raValidB, Bool.and_eq_true, decide_eq_true_eq] at hv
    obtain ⟨⟨hlo, hin⟩, hv'⟩ := hv
    have hpb : p - P.length ≤ b.length := by omega
    have hrem : ((P ++ b).drop p).take klen =
        (b.drop (p - P.length)).take klen := by
      have hp : p = P.length + (p - P.length) := by omega
      conv_lhs => rw [hp, drop_append_plus]
    have hremlen : ((b.drop (p - P.length)).take klen).length = klen := by
      simp only [List.length_take, List.length_drop]
      omega
    simp only [List.zip_cons_cons, List.map_cons, raInv, hrem]
    set rem0 := (b.drop (p - P.length)).take klen with hrem0
    set A := P ++ b.take (p - P.length) with hA
    have hAlen : A.length = p := by
      simp [hA, List.length_append, List.length_take]
      omega
    have hX : P ++ raSeg klen repl P.length (p :: ps) b =
        (A ++ repl) ++ raSeg klen repl (p + klen) ps (b.drop (p - P.length + klen)) := by
      simp [raSeg, hA, List.append_assoc]
    rw [hX]
    have htake : ((A ++ repl) ++
        raSeg klen repl (p + klen) ps (b.drop (p - P.length + klen))).take p = A := by
      rw [List.append_assoc, ← hAlen, take_append_self]
    have hdrop : ((A ++ repl) ++
        raSeg klen repl (p + klen) ps (b.drop (p - P.length + klen))).drop
          (p + repl.length) =
        raSeg klen repl (p + klen) ps (b.drop (p - P.length + klen)) := by
      have : p + repl.length = (A ++ repl).length := by
        simp [List.length_append, hAlen]
      rw [this, drop_append_self]
    rw [htake, hdrop]
    set P' := A ++ rem0 with hP'
    have hP'len : P'.length = p + klen := by
      simp [hP', List.length_append, hAlen, hremlen]
    have hPb : P' ++ b.drop (p - P.length + klen) = P ++ b := by
      have h2 : b.drop (p - P.length + klen) = (b.drop (p - P.length)).drop klen := by
        rw [List.drop_drop]
      simp only [hP', hA, hrem0, List.append_assoc, h2]
      simp only [List.take_append_drop]
    have hvnext : raValidB klen P'.length ps
        (P'.length + (b.drop (p - P.length + klen)).length) = true := by
      rw [hP'len]
      have : p + klen + (b.drop (p - P.length + klen)).length = P.length + b.length := by
        simp only [List.length_drop]
        omega
      rw [this]
      exact hv'
    have := ih P' (b.drop (p - P.length + klen)) hvnext
    rw [hP'len] at this
    rw [hPb] at this
    exact this

/-- Round trip for a valid multi-position replacement: restoring the
captured removed segments at the original offsets undoes the
delta-translated forward application exactly. -/
theorem raInv_raApply (klen : Nat) (repl : List Nat) (ps : List Nat) (B : List Nat)
    (hv : raValidB klen 0 ps B.length = true) :
    raInv repl.length (ps.zip (ps.map (fun p => (B.drop p).take klen)))
      (raApply klen repl ps 0 B) = B := by
  have h1 := raApply_eq_raSeg klen repl ps 0 0 [] B (by simp) (by simpa using hv)
  simp only [List.nil_append] at h1
  rw [h1]
  have h2 := raInv_raSeg klen repl ps [] B (by simpa using hv)
  simpa using h2

/-! ### Edit actions and the Document

`actions.ts` and `document.ts` are not part of the excerpted sources;
the types and operations below are modelled from the spec (sections 3,
4.3 and 4.4). -/

/-- Modelled from the spec: the configured indent unit — Unindent
removes up to one leading tab or up to this many leading spaces per
line. -/
def indentUnit : Nat := 4

/-- Number of leading spaces of a line, capped at `n`. -/
def leadingSpaces : List Nat → Nat → Nat
  | _, 0 => 0
  | [], _ => 0
  | c :: r, n + 1 => if c = 32 then leadingSpaces r n + 1 else 0

/-- Modelled from the spec: per-line effect of Unindent — remove one
leading tab, or up to one indent unit of leading spaces.  Returns the
removed prefix and the remaining line. -/
def unindentLine (l : List Nat) : List Nat × List Nat :=
  match l with
  | [] => ([], [])
  | c :: rest =>
    if c = 9 then ([9], rest)
    else
      let k := leadingSpaces (c :: rest) indentUnit
      ((c :: rest).take k, (c :: rest).drop k)

/-- Per-line effect of Uncomment: strip the line-comment marker when it
is present at column 0. -/
def uncommentLine (m l : List Nat) : List Nat :=
  if m.isPrefixOf l then l.drop m.length else l

/-- Captured per-line prefix removed by Uncomment. -/
def uncommentPref (m l : List Nat) : List Nat :=
  if m.isPrefixOf l then m else []

/-- Modelled from the spec: the closed set of reversible edit variants
(single contiguous replace with optional merging, indent, unindent,
line-comment toggle, multi-position replace-all).  Each variant carries
the captured "before" state (removed text, previous cursor and
selection) needed to invert itself exactly. -/
inductive Action where
  | simple (pos rem : Nat) (ins : List Nat) (mergeable : Bool)
      (removedText : List Nat) (beforeCursor : Nat) (beforeSel : Option Nat)
  | indent (b e : Nat) (beforeCursor : Nat) (beforeSel : Option Nat)
  | unindent (b e : Nat) (removedPref : List (List Nat))
      (beforeCursor : Nat) (beforeSel : Option Nat)
  | comment (b e : Nat) (marker : List Nat)
      (beforeCursor : Nat) (beforeSel : Option Nat)
  | uncomment (b e : Nat) (marker : List Nat) (removedPref : List (List Nat))
      (beforeCursor : Nat) (beforeSel : Option Nat)
  | replaceAll (positions : List Nat) (key repl : List Nat)
      (removedTexts : List (List Nat)) (beforeCursor : Nat) (beforeSel : Option Nat)
deriving DecidableEq

/-- Modelled from the spec: the Document owns the character buffer,
cursor, optional selection anchor, the undo/redo stacks and the dirty
flag.  The language's line-comment marker (`language.linecomment`) is
the only language datum the claims need. -/
structure Document where
  marker : Option (List Nat)
  buffer : List Nat
  cursor : Nat
  selection : Option Nat
  undoStack : List Action
  redoStack : List Action
  dirty : Bool
deriving DecidableEq

def Document.size (d : Document) : Nat := d.buffer.length

/-- SimpleAction constructor: captures the removed text and the cursor
and selection of the document it is created against. -/
def mkSimple (d : Document) (pos rem : Nat) (ins : Option (List Nat))
    (mergeable : Bool) : Action :=
  .simple pos rem (ins.getD []) mergeable ((d.buffer.drop pos).take rem)
    d.cursor d.selection

def mkIndent (d : Document) (b e : Nat) : Action :=
  .indent b e d.cursor d.selection

def mkUnindent (d : Document) (b e : Nat) : Action :=
  .unindent b e (collectIdx (fun l => (unindentLine l).1) b e 0 (lines d.buffer))
    d.cursor d.selection

def mkComment (d : Document) (b e : Nat) : Action :=
  .comment b e (d.marker.getD []) d.cursor d.selection

def mkUncomment (d : Document) (b e : Nat) : Action :=
  .uncomment b e (d.marker.getD [])
    (collectIdx (uncommentPref (d.marker.getD [])) b e 0 (lines d.buffer))
    d.cursor d.selection

def mkReplaceAll (d : Document) (positions key repl : List Nat) : Action :=
  .replaceAll positions key repl
    (positions.map (fun p => (d.buffer.drop p).take key.length))
    d.cursor d.selection

/-- The document state an action transforms: buffer, cursor and
selection (the stacks and flags are managed by `execute`/`undo`/`redo`
separately). -/
structure Core where
  buffer : List Nat
  cursor : Nat
  selection : Option Nat
deriving DecidableEq

def Document.core (d : Document) : Core := ⟨d.buffer, d.cursor, d.selection⟩

/-- Modelled from the spec: forward application of an action to the
document state (buffer, cursor, selection). -/
def applyC : Action → Core → Core
  | .simple pos rem ins _ _ _ _, c =>
    ⟨c.buffer.take pos ++ ins ++ c.buffer.drop (pos + rem),
      pos + ins.length, none⟩
  | .indent b e _ _, c =>
    ⟨joinLines (mapIdx (fun l => 9 :: l) b e 0 (lines c.buffer)),
      c.cursor, c.selection⟩
  | .unindent b e _ _ _, c =>
    ⟨joinLines (mapIdx (fun l => (unindentLine l).2) b e 0 (lines c.buffer)),
      c.cursor, c.selection⟩
  | .comment b e m _ _, c =>
    ⟨joinLines (mapIdx (fun l => m ++ l) b e 0 (lines c.buffer)),
      c.cursor, c.selection⟩
  | .uncomment b e m _ _ _, c =>
    ⟨joinLines (mapIdx (uncommentLine m) b e 0 (lines c.buffer)),
      c.cursor, c.selection⟩
  | .replaceAll ps key repl _ _ _, c =>
    ⟨raApply key.length repl ps 0 c.buffer, c.cursor, c.selection⟩

/-- Modelled from the spec: applying the inverse of an action — the
symmetric Replace re-inserting the captured removed text, removal of
the inserted tab / marker per line, restoration of captured per-line
prefixes, or restoration of the captured removed segments — and
restoration of the captured cursor and selection. -/
def invertC : Action → Core → Core
  | .simple pos _ ins _ removedText bc bs, c =>
    ⟨c.buffer.take pos ++ removedText ++ c.buffer.drop (pos + ins.length), bc, bs⟩
  | .indent b e bc bs, c =>
    ⟨joinLines (mapIdx (fun l => l.drop 1) b e 0 (lines c.buffer)), bc, bs⟩
  | .unindent b e rp bc bs, c =>
    ⟨joinLines (restoreIdx b e 0 rp (lines c.buffer)), bc, bs⟩
  | .comment b e m bc bs, c =>
    ⟨joinLines (mapIdx (fun l => l.drop m.length) b e 0 (lines c.buffer)), bc, bs⟩
  | .uncomment b e _ rp bc bs, c =>
    ⟨joinLines (restoreIdx b e 0 rp (lines c.buffer)), bc, bs⟩
  | .replaceAll ps _ repl removedTexts bc bs, c =>
    ⟨raInv repl.length (ps.zip removedTexts) c.buffer, bc, bs⟩

/-- Forward application, lifted to the document. -/
def applyAction (a : Action) (d : Document) : Document :=
  let c := applyC a d.core
  { d with buffer := c.buffer, cursor := c.cursor, selection := c.selection }

/-- Inverse application, lifted to the document. -/
def invertApply (a : Action) (d : Document) : Document :=
  let c := invertC a d.core
  { d with buffer := c.buffer, cursor := c.cursor, selection := c.selection }

/-- Mergeable flag of an action (only SimpleActions can merge). -/
def Action.canMerge : Action → Bool
  | .simple _ _ _ m _ _ _ => m
  | _ => false

def Action.isSimple : Action → Bool
  | .simple _ _ _ _ _ _ _ => true
  | _ => false

/-- Modelled from the spec: typing-run coalescing.  A new mergeable
Replace merges into the previous mergeable Replace exactly when it is a
single-character insertion (not a newline) or a single-character
backward deletion directly adjacent to the previous edit's resulting
cursor.  The merged action keeps the first action's captured before
state, so one undo covers the whole run. -/
def mergeActions : Action → Action → Option Action
  | .simple pos0 rem0 ins0 true rm0 bc0 bs0, .simple pos rem ins true rm _ _ =>
    match rem, ins with
    | 0, [c] =>
      if c ≠ 10 ∧ pos = pos0 + ins0.length then
        some (.simple pos0 rem0 (ins0 ++ [c]) true rm0 bc0 bs0)
      else none
    | 1, [] =>
      if pos + 1 = pos0 + ins0.length then
        match ins0 with
        | [] => some (.simple pos (rem0 + 1) [] true (rm ++ rm0) bc0 bs0)
        | _ :: _ => some (.simple pos0 rem0 ins0.dropLast true rm0 bc0 bs0)
      else none
    | _, _ => none
  | _, _ => none

/-- Modelled from the spec: `execute(action, canMerge)` applies the
action, merges it into the top of the undo stack when eligible (else
pushes it), clears the redo stack, and sets the dirty flag. -/
def execute (a : Action) (canMerge : Bool) (d : Document) : Document :=
  let d1 := applyAction a d
  let stack :=
    match canMerge, d.undoStack with
    | true, prev :: rest =>
      match mergeActions prev a with
      | some m => m :: rest
      | none => a :: d.undoStack
    | _, _ => a :: d.undoStack
  { d1 with undoStack := stack, redoStack := [], dirty := true }

/-- Modelled from the spec: `undo()` pops from the undo stack, applies
the action's inverse, and pushes the original popped action onto the
redo stack; returns the popped action (or null). -/
def undo (d : Document) : Option Action × Document :=
  match d.undoStack with
  | [] => (none, d)
  | a :: rest =>
    let d1 := invertApply a d
    (some a, { d1 with undoStack := rest, redoStack := a :: d.redoStack })

/-- Modelled from the spec: `redo()` pops from the redo stack, reapplies
the action directly, and pushes it back onto the undo stack. -/
def redo (d : Document) : Option Action × Document :=
  match d.redoStack with
  | [] => (none, d)
  | a :: rest =>
    let d1 := applyAction a d
    (some a, { d1 with undoStack := a :: d.undoStack, redoStack := rest })

/-- Iterated undo. -/
def undoN : Nat → Document → Document
  | 0, d => d
  | n + 1, d => undoN n (undo d).2

/-! ### Search -/

/-- ASCII lower-casing used for case-insensitive search. -/
def lowerCode (c : Nat) : Nat := if 65 ≤ c ∧ c ≤ 90 then c + 32 else c

def foldCase (ic : Bool) (c : Nat) : Nat := if ic then lowerCode c else c

/-- Does `key` occur (modulo case folding) at offset `p`? -/
def occursAt (buf key : List Nat) (ic : Bool) (p : Nat) : Bool :=
  decide ((((buf.drop p).take key.length).map (foldCase ic)) = key.map (foldCase ic))

/-- First occurrence of `key` at an offset in `[lo, hi)`. -/
def findIn (buf key : List Nat) (ic : Bool) (lo hi : Nat) : Option Nat :=
  (List.range' lo (hi - lo)).find? (occursAt buf key ic)

/-- Modelled from the spec:
`find(fromPos, key, ignoreCase, forwardWrap)` returns the first
occurrence of the (non-empty) key at or after `fromPos`; with
`forwardWrap` the search continues from offset 0 up to (but not
including) `fromPos`; null if the key is empty or no match exists. -/
def find (d : Document) (fromPos : Nat) (key : List Nat)
    (ic forwardWrap : Bool) : Option Nat :=
  if key.isEmpty then none
  else
    match findIn d.buffer key ic fromPos d.buffer.length with
    | some p => some p
    | none => if forwardWrap then findIn d.buffer key ic 0 fromPos else none

/-! ### Editor front-end handlers

The definitions below are translated from `src/ide/editor/editor.ts`;
only the document-state effects are modelled (DOM, scrolling and
drawing are outside the engine). -/

/-- Triviality test of an action (`UnindentAction.trivial()`): an
unindent is trivial when no line in range had removable leading
whitespace, i.e. every captured removed prefix is empty. -/
def Action.trivial : Action → Bool
  | .unindent _ _ rp _ _ => rp.all (fun p => decide (p = []))
  | _ => false

/-- Translated from `Editor.selectedLines` (editor.ts:831): the line
range covered by the selection (or the cursor line), with the last line
excluded when the range's lower end sits at column 0. -/
def selectedLines (d : Document) : Nat × Nat :=
  let br := rowOf d.buffer d.cursor
  let bc := colOf d.buffer d.cursor
  match d.selection with
  | none => (br, br + 1)
  | some s =>
    let sr := rowOf d.buffer s
    let sc := colOf d.buffer s
    if s < d.cursor then
      (sr, if bc = 0 then br else br + 1)
    else
      (br, if sc = 0 then sr else sr + 1)

/-- Translated from `Editor.selection()` (editor.ts:439): the selected
text, empty when no selection anchor is stored. -/
def selectionText (d : Document) : List Nat :=
  match d.selection with
  | none => []
  | some s => (d.buffer.take (max d.cursor s)).drop (min d.cursor s)

/-- Translated from `Editor.simpleAction` (editor.ts:852): returns
unchanged in read-only mode; otherwise derives position and removal
count from cursor and selection, normalizes an empty insertion to null,
and executes a SimpleAction with the given merge eligibility. -/
def simpleAction (readOnly : Bool) (ins : Option (List Nat)) (canMerge : Bool)
    (d : Document) : Document :=
  if readOnly then d
  else
    let pos := match d.selection with
      | none => d.cursor
      | some s => min d.cursor s
    let rem := match d.selection with
      | none => 0
      | some s => max d.cursor s - min d.cursor s
    let ins1 := match ins with
      | some l => if l.length = 0 then none else some l
      | none => none
    execute (mkSimple d pos rem ins1 canMerge) canMerge d

/-- Translated from `Editor.onInput` (editor.ts:1312), insertText path:
typing a run of text (a single character for key input). -/
def onInputInsertText (readOnly : Bool) (data : List Nat) (d : Document) : Document :=
  if readOnly then d else simpleAction false (some data) true d

/-- Translated from `Editor.onKey` (editor.ts:1226), Tab branch: with
shift, unindent the selected lines unless trivial; without shift,
indent the selected lines when a nonempty selection exists, else insert
a tabulator as a plain typing action. -/
def onKeyTab (readOnly shiftKey : Bool) (d : Document) : Document :=
  if readOnly then d
  else if shiftKey then
    let be := selectedLines d
    let a := mkUnindent d be.1 be.2
    if a.trivial then d else execute a true d
  else
    let selected := match d.selection with
      | some s => decide (s ≠ d.cursor)
      | none => false
    if selected then
      let be := selectedLines d
      execute (mkIndent d be.1 be.2) true d
    else simpleAction false (some [9]) true d

/-- Translated from `Editor.onKey` (editor.ts:1258), Backspace branch. -/
def onKeyBackspace (readOnly : Bool) (d : Document) : Document :=
  if readOnly then d
  else
    let selected := match d.selection with
      | some s => decide (s ≠ d.cursor)
      | none => false
    if selected then simpleAction false none true d
    else if d.cursor > 0 then
      simpleAction false none true { d with selection := some (d.cursor - 1) }
    else d

/-- Translated from `Editor.onKey` (editor.ts:1272), Delete branch. -/
def onKeyDelete (readOnly : Bool) (d : Document) : Document :=
  if readOnly then d
  else
    let selected := match d.selection with
      | some s => decide (s ≠ d.cursor)
      | none => false
    if selected then simpleAction false none true d
    else if d.cursor < d.size then
      simpleAction false none true { d with selection := some (d.cursor + 1) }
    else d

/-- Leading tab/space run of a line, cut off at `n` code points. -/
def enterIndent : List Nat → Nat → List Nat
  | _, 0 => []
  | [], _ + 1 => []
  | c :: rest, n + 1 => if c = 9 ∨ c = 32 then c :: enterIndent rest n else []

/-- Translated from `Editor.onKey` (editor.ts:1286), Enter branch:
insert a newline followed by the current line's indentation up to the
cursor position. -/
def onKeyEnter (readOnly : Bool) (d : Document) : Document :=
  if readOnly then d
  else
    let r := rowOf d.buffer d.cursor
    let start := lineStart d.buffer r
    let ins := 10 :: enterIndent (d.buffer.drop start) (d.cursor - start)
    simpleAction false (some ins) true d

/-- Translated from `Editor.onCut` (editor.ts:1336): deletes the
selection when it is nonempty and the editor is not read-only. -/
def onCut (readOnly : Bool) (d : Document) : Document :=
  if (selectionText d).length > 0 && !readOnly then
    simpleAction false none true d
  else d

/-- Translated from `Editor.onPaste` (editor.ts:1357): pastes with
merging disabled, when not read-only and there is something to do. -/
def onPaste (readOnly : Bool) (s : List Nat) (d : Document) : Document :=
  let selected := match d.selection with
    | some sel => decide (sel ≠ d.cursor)
    | none => false
  if !readOnly then
    if selected || s.length > 0 then simpleAction false (some s) false d else d
  else d

/-- Translated from `Editor.onKey` (editor.ts:934), undo key branch:
guarded by read-only mode. -/
def onKeyUndo (readOnly : Bool) (d : Document) : Document :=
  if readOnly then d else (undo d).2

/-- Translated from `Editor.onKey` (editor.ts:954), redo key branch. -/
def onKeyRedo (readOnly : Bool) (d : Document) : Document :=
  if readOnly then d else (redo d).2

/-- Minimal change descriptor reported to the `changed` event. -/
structure LineStructureChange where
  line : Nat
  inserted : Nat
  removed : Nat
deriving DecidableEq

/-- Modelled from the spec: `affectedLines` of an action reports the
first changed line and the inserted/removed line counts; for a
SimpleAction these are the newline counts of the inserted and the
removed text.  (`actions.ts` is not part of the excerpted sources; the
editor only reads this descriptor for SimpleActions.) -/
def linesChanged (a : Action) (d : Document) : Option LineStructureChange :=
  match a with
  | .simple pos _ ins _ removedText _ _ =>
    some ⟨rowOf d.buffer pos, countNL ins, countNL removedText⟩
  | _ => none

/-- Translated from `Editor.onKey` (editor.ts:934): the argument passed
to the `changed` event by the undo key branch — the popped
SimpleAction's `linesChanged` descriptor with inserted and removed
swapped (the swap is intentional in the source), and null for any other
popped action or an empty history. -/
def onKeyUndoChangeArg (d : Document) : Option LineStructureChange :=
  let r := undo d
  match r.1 with
  | some a =>
    if a.isSimple then
      match linesChanged a r.2 with
      | some ch => some ⟨ch.line, ch.removed, ch.inserted⟩
      | none => none
    else none
  | none => none

/-- Translated from `Editor.onKey` (editor.ts:963), toggle-comment
branch: whether every line in range starts with the marker. -/
def allCommented (d : Document) (m : List Nat) (b e : Nat) : Bool :=
  (List.range' b (e - b)).all (fun line =>
    m.isPrefixOf (d.buffer.drop (setCoordinates d.buffer line 0).pos))

/-- Translated from `Editor.onKey` (editor.ts:963), toggle-comment
branch: a no-op unless the language defines a line-comment marker;
otherwise uncomment when all lines in range are commented, else
comment. -/
def onKeyToggleComment (readOnly : Bool) (d : Document) : Document :=
  if readOnly then d
  else
    match d.marker with
    | none => d
    | some m =>
      let be := selectedLines d
      let a := if allCommented d m be.1 be.2 then mkUncomment d be.1 be.2
               else mkComment d be.1 be.2
      execute a true d

/-- Translated from `Editor.onReplace` (editor.ts:1524). -/
def onReplace (readOnly : Bool) (key repl : List Nat) (ic : Bool)
    (d : Document) : Document :=
  if readOnly then d
  else
    let start := match d.selection with
      | some s => if s < d.cursor then s else d.cursor
      | none => d.cursor
    match find d start key ic true with
    | none => d
    | some pos =>
      if d.selection = some pos ∨ pos = d.cursor then
        simpleAction false (some repl) true
          { d with selection := some pos, cursor := pos + key.length }
      else
        { d with selection := some pos, cursor := pos + key.length }

/-- Occurrence-collection loop of `Editor.onReplaceAll`
(editor.ts:1551): repeated non-wrapping `find` from the position after
the previous hit.  The fuel `d.size + 1` bounds the iteration count:
each found position advances `start` by at least one code point. -/
def collectGo (d : Document) (key : List Nat) (ic : Bool) : Nat → Nat → List Nat
  | 0, _ => []
  | fuel + 1, start =>
    if start < d.size then
      match find d start key ic false with
      | none => []
      | some pos => pos :: collectGo d key ic fuel (pos + key.length)
    else []

/-- Translated from `Editor.onReplaceAll` (editor.ts:1551): all
occurrence offsets are collected from the unmutated document first,
then a single ReplaceAction executes as one undoable step. -/
def onReplaceAll (readOnly : Bool) (key repl : List Nat) (ic : Bool)
    (d : Document) : Document :=
  if readOnly then d
  else
    let positions := collectGo d key ic (d.size + 1) 0
    if positions.isEmpty then d
    else execute (mkReplaceAll d positions key repl) true d

/-- Translated from `Editor.onPointerStart` (editor.ts:1405), the
document-state part: set the selection anchor (kept with shift,
re-anchored at the pointer position otherwise) and move the cursor. -/
def onPointerStart (shiftKey : Bool) (pos : Nat) (d : Document) : Document :=
  let sel1 := match d.selection with
    | none => if shiftKey then some d.cursor else some pos
    | some s => if shiftKey then some s else some pos
  { d with selection := sel1, cursor := pos }

/-- Translated from `Editor.onPointerFinish` (editor.ts:1438): move the
cursor to the release position and collapse a selection equal to the
cursor to no selection. -/
def onPointerFinish (pos : Nat) (d : Document) : Document :=
  let d1 := { d with cursor := pos }
  match d1.selection with
  | some s => if s = d1.cursor then { d1 with selection := none } else d1
  | none => d1

/-- The editor events whose handlers could mutate the document. -/
inductive EditorEvent where
  | input (data : List Nat)
  | keyTab (shiftKey : Bool)
  | keyBackspace
  | keyDelete
  | keyEnter
  | cut
  | paste (s : List Nat)
  | keyUndo
  | keyRedo
  | keyToggleComment
  | searchReplace (key repl : List Nat) (ic : Bool)
  | searchReplaceAll (key repl : List Nat) (ic : Bool)
deriving DecidableEq

/-- Dispatch of the mutating editor events to their handlers, each
translated from editor.ts with its read-only guard. -/
def handleEvent (readOnly : Bool) : EditorEvent → Document → Document
  | .input data, d => onInputInsertText readOnly data d
  | .keyTab sh, d => onKeyTab readOnly sh d
  | .keyBackspace, d => onKeyBackspace readOnly d
  | .keyDelete, d => onKeyDelete readOnly d
  | .keyEnter, d => onKeyEnter readOnly d
  | .cut, d => onCut readOnly d
  | .paste s, d => onPaste readOnly s d
  | .keyUndo, d => onKeyUndo readOnly d
  | .keyRedo, d => onKeyRedo readOnly d
  | .keyToggleComment, d => onKeyToggleComment readOnly d
  | .searchReplace key repl ic, d => onReplace readOnly key repl ic d
  | .searchReplaceAll key repl ic, d => onReplaceAll readOnly key repl ic d

/-! ### Inversion: each captured action undoes its own application -/

theorem take_at_join (P X D : List Nat) :
    (P ++ X ++ D).take (P.length + X.length) = P ++ X := by
  rw [List.append_assoc, take_append_plus P (X ++ D) X.length,
    take_append_self]

theorem drop_at_join (P X D : List Nat) :
    (P ++ X ++ D).drop (P.length + X.length) = D := by
  rw [List.append_assoc, drop_append_plus P (X ++ D) X.length,
    drop_append_self]

theorem take_append_le (X D : List Nat) (k : Nat) (h : k ≤ X.length) :
    (X ++ D).take k = X.take k := by
  induction X generalizing k with
  | nil =>
    have : k = 0 := by simpa using h
    simp [this]
  | cons c X ih =>
    cases k with
    | zero => simp
    | succ k =>
      simp only [List.cons_append, List.take_succ_cons]
      rw [ih k (by simpa using h)]

theorem drop_append_le (X D : List Nat) (k : Nat) (h : k ≤ X.length) :
    (X ++ D).drop k = X.drop k ++ D := by
  induction X generalizing k with
  | nil =>
    have : k = 0 := by simpa using h
    simp [this]
  | cons c X ih =>
    cases k with
    | zero => simp
    | succ k =>
      simp only [List.cons_append, List.drop_succ_cons]
      exact ih k (by simpa using h)

theorem unindentLine_split (l : List Nat) :
    (unindentLine l).1 ++ (unindentLine l).2 = l := by
  cases l with
  | nil => rfl
  | cons c rest =>
    by_cases hc : c = 9
    · subst hc; rfl
    · simp only [unindentLine, if_neg hc]
      exact List.take_append_drop _ _

theorem unindentLine_no_newline (l : List Nat) (h : 10 ∉ l) :
    10 ∉ (unindentLine l).2 := by
  intro hmem
  apply h
  rw [← unindentLine_split l]
  exact List.mem_append.2 (Or.inr hmem)

theorem uncommentLine_split (m l : List Nat) :
    uncommentPref m l ++ uncommentLine m l = l := by
  unfold uncommentPref uncommentLine
  by_cases hp : m.isPrefixOf l
  · simp only [hp, if_pos]
    obtain ⟨t, rfl⟩ := List.isPrefixOf_iff_prefix.1 hp
    rw [drop_append_self]
  · simp [hp]

theorem uncommentLine_no_newline (m l : List Nat) (h : 10 ∉ l) :
    10 ∉ uncommentLine m l := by
  intro hmem
  apply h
  rw [← uncommentLine_split m l]
  exact List.mem_append.2 (Or.inr hmem)

/-- `lines (joinLines ls) = ls` for nonempty newline-free families. -/
theorem lines_joinLines_of (ls : List (List Nat)) (h0 : ls ≠ [])
    (h2 : ∀ l ∈ ls, 10 ∉ l) : lines (joinLines ls) = ls := by
  cases ls with
  | nil => exact absurd rfl h0
  | cons hd tl =>
    exact lines_joinLines hd tl (h2 hd (List.mem_cons_self hd tl))
      (fun l hl => h2 l (List.mem_cons_of_mem hd hl))

/-- Line-range transformation applied to a whole buffer. -/
def mapBuf (f : List Nat → List Nat) (b e : Nat) (B : List Nat) : List Nat :=
  joinLines (mapIdx f b e 0 (lines B))

/-- Inverting a per-line transformation: applying `g` after `f` over the
same range is the identity on the buffer, provided `g` undoes `f` per
line and `f` introduces no newline. -/
theorem mapBuf_mapBuf_id (f g : List Nat → List Nat)
    (hfg : ∀ l, g (f l) = l) (hf : ∀ l, 10 ∉ l → 10 ∉ f l)
    (b e : Nat) (B : List Nat) :
    mapBuf g b e (mapBuf f b e B) = B := by
  unfold mapBuf
  have hnl : ∀ l ∈ mapIdx f b e 0 (lines B), 10 ∉ l :=
    mapIdx_no_newline f hf b e 0 (lines B) (lines_no_newline B)
  cases hML : mapIdx f b e 0 (lines B) with
  | nil => exact absurd hML (mapIdx_ne_nil f b e 0 (lines B) (by simp [lines]))
  | cons hd tl =>
    rw [← hML, lines_joinLines_of (mapIdx f b e 0 (lines B)) (by rw [hML]; simp) hnl,
      mapIdx_mapIdx, mapIdx_congr_id (fun l => g (f l)) hfg, joinLines_lines]

/-- Restoring captured per-line prefixes after a stripping pass rebuilds
the buffer. -/
theorem restoreBuf_id (pf rf : List Nat → List Nat)
    (hsplit : ∀ l, pf l ++ rf l = l) (hf : ∀ l, 10 ∉ l → 10 ∉ rf l)
    (b e : Nat) (B : List Nat) :
    joinLines (restoreIdx b e 0 (collectIdx pf b e 0 (lines B))
      (lines (mapBuf rf b e B))) = B := by
  unfold mapBuf
  have hnl : ∀ l ∈ mapIdx rf b e 0 (lines B), 10 ∉ l :=
    mapIdx_no_newline rf hf b e 0 (lines B) (lines_no_newline B)
  rw [lines_joinLines_of (mapIdx rf b e 0 (lines B))
      (mapIdx_ne_nil rf b e 0 (lines B) (by simp [lines])) hnl,
    restoreIdx_collectIdx pf rf hsplit, joinLines_lines]

/-- The captured fields of an action are consistent with the state the
action was created against and applied to: removed text and per-line
prefixes were read off that state, offsets are in range, markers are
newline-free, and the before-cursor/selection are that state's. -/
def CapturedOK : Action → Core → Prop
  | .simple pos rem _ _ removedText bc bs, c =>
    pos + rem ≤ c.buffer.length ∧
    removedText = (c.buffer.drop pos).take rem ∧
    bc = c.cursor ∧ bs = c.selection
  | .indent _ _ bc bs, c => bc = c.cursor ∧ bs = c.selection
  | .unindent b e rp bc bs, c =>
    rp = collectIdx (fun l => (unindentLine l).1) b e 0 (lines c.buffer) ∧
    bc = c.cursor ∧ bs = c.selection
  | .comment _ _ m bc bs, c =>
    10 ∉ m ∧ bc = c.cursor ∧ bs = c.selection
  | .uncomment b e m rp bc bs, c =>
    10 ∉ m ∧ rp = collectIdx (uncommentPref m) b e 0 (lines c.buffer) ∧
    bc = c.cursor ∧ bs = c.selection
  | .replaceAll ps key _ rts bc bs, c =>
    raValidB key.length 0 ps c.buffer.length = true ∧
    rts = ps.map (fun p => (c.buffer.drop p).take key.length) ∧
    bc = c.cursor ∧ bs = c.selection

/-- Master inversion lemma: an action with consistent captured state
undoes its own application exactly (buffer, cursor and selection). -/
theorem invertC_applyC (a : Action) (c : Core) (h : CapturedOK a c) :
    invertC a (applyC a c) = c := by
  obtain ⟨B, cur, sel⟩ := c
  cases a with
  | simple pos rem ins mg rt bc bs =>
    obtain ⟨hlen, hrt, hbc, hbs⟩ := h
    simp only [CapturedOK] at hlen hrt hbc hbs
    simp only [applyC, invertC]
    have hP : (B.take pos).length = pos := by
      simp only [List.length_take]
      omega
    have htk : (B.take pos ++ ins ++ B.drop (pos + rem)).take pos =
        B.take pos := by
      rw [take_append_le (B.take pos ++ ins) _ pos
        (by simp only [List.length_append, hP]; omega)]
      rw [take_append_le (B.take pos) ins pos (le_of_eq hP.symm)]
      rw [List.take_take, min_self]
    have hdr : (B.take pos ++ ins ++ B.drop (pos + rem)).drop (pos + ins.length) =
        B.drop (pos + rem) := by
      have h2 : pos + ins.length = (B.take pos).length + ins.length := by rw [hP]
      rw [h2, drop_at_join]
    simp only [htk, hdr, hbc, hbs, hrt]
    refine congrArg (fun x => Core.mk x cur sel) ?_
    have h1 : (B.drop pos).take rem ++ B.drop (pos + rem) = B.drop pos := by
      have h2 : B.drop (pos + rem) = (B.drop pos).drop rem := by
        rw [List.drop_drop]
      rw [h2, List.take_append_drop]
    rw [List.append_assoc, h1, List.take_append_drop]
  | indent b e bc bs =>
    obtain ⟨hbc, hbs⟩ := h
    simp only [applyC, invertC]
    have := mapBuf_mapBuf_id (fun l => 9 :: l) (fun l => l.drop 1)
      (fun l => rfl) (fun l hl hm => hl (by simpa using hm)) b e B
    unfold mapBuf at this
    rw [this, hbc, hbs]
  | unindent b e rp bc bs =>
    obtain ⟨hrp, hbc, hbs⟩ := h
    simp only [applyC, invertC]
    have := restoreBuf_id (fun l => (unindentLine l).1) (fun l => (unindentLine l).2)
      unindentLine_split unindentLine_no_newline b e B
    unfold mapBuf at this
    rw [hrp, this, hbc, hbs]
  | comment b e m bc bs =>
    obtain ⟨hm, hbc, hbs⟩ := h
    simp only [applyC, invertC]
    have := mapBuf_mapBuf_id (fun l => m ++ l) (fun l => l.drop m.length)
      (fun l => drop_append_self m l)
      (fun l hl hmem => by
        rcases List.mem_append.1 hmem with h1 | h1
        · exact hm h1
        · exact hl h1) b e B
    unfold mapBuf at this
    rw [this, hbc, hbs]
  | uncomment b e m rp bc bs =>
    obtain ⟨hm, hrp, hbc, hbs⟩ := h
    simp only [applyC, invertC]
    have := restoreBuf_id (uncommentPref m) (uncommentLine m)
      (uncommentLine_split m) (uncommentLine_no_newline m) b e B
    unfold mapBuf at this
    rw [hrp, this, hbc, hbs]
  | replaceAll ps key repl rts bc bs =>
    obtain ⟨hv, hrts, hbc, hbs⟩ := h
    simp only [applyC, invertC]
    rw [hrts, raInv_raApply key.length repl ps B hv, hbc, hbs]

/-! ### Merging preserves invertibility -/

/-- A merged typing action is again a consistently captured action for
the state before the first of the two edits, and applying it equals
applying both edits in sequence. -/
theorem merge_ok (prev a m : Action) (c0 c1 : Core)
    (hCap0 : CapturedOK prev c0) (hApp0 : applyC prev c0 = c1)
    (hCap : CapturedOK a c1) (hm : mergeActions prev a = some m) :
    CapturedOK m c0 ∧ applyC m c0 = applyC a c1 := by
  subst hApp0
  cases prev with
  | indent b e bc bs => exact absurd hm (by cases a <;> simp [mergeActions])
  | unindent b e rp bc bs => exact absurd hm (by cases a <;> simp [mergeActions])
  | comment b e mk bc bs => exact absurd hm (by cases a <;> simp [mergeActions])
  | uncomment b e mk rp bc bs => exact absurd hm (by cases a <;> simp [mergeActions])
  | replaceAll ps k r rts bc bs => exact absurd hm (by cases a <;> simp [mergeActions])
  | simple pos0 rem0 ins0 mg0 rm0 bc0 bs0 =>
    cases a with
    | indent b e bc bs => exact absurd hm (by cases mg0 <;> simp [mergeActions])
    | unindent b e rp bc bs => exact absurd hm (by cases mg0 <;> simp [mergeActions])
    | comment b e mk bc bs => exact absurd hm (by cases mg0 <;> simp [mergeActions])
    | uncomment b e mk rp bc bs => exact absurd hm (by cases mg0 <;> simp [mergeActions])
    | replaceAll ps k r rts bc bs => exact absurd hm (by cases mg0 <;> simp [mergeActions])
    | simple pos rem ins mg rm bc bs =>
      cases mg0 with
      | false => exact absurd hm (by simp [mergeActions])
      | true =>
        cases mg with
        | false => exact absurd hm (by simp [mergeActions])
        | true =>
          obtain ⟨hb0, hrm0, hbc0, hbs0⟩ := hCap0
          have hP : (c0.buffer.take pos0).length = pos0 := by
            simp only [List.length_take]
            omega
          cases rem with
          | zero =>
            cases ins with
            | nil => exact absurd hm (by simp [mergeActions])
            | cons c cs =>
              cases cs with
              | cons c2 cs2 => exact absurd hm (by simp [mergeActions])
              | nil =>
                simp only [mergeActions] at hm
                by_cases hcnd : c ≠ 10 ∧ pos = pos0 + ins0.length
                · rw [if_pos hcnd] at hm
                  obtain ⟨hc10, hposE⟩ := hcnd
                  obtain rfl := Option.some.inj hm
                  refine ⟨⟨hb0, hrm0, hbc0, hbs0⟩, ?_⟩
                  have hX : pos = (c0.buffer.take pos0).length + ins0.length := by
                    rw [hP]
                    exact hposE
                  simp only [applyC, Core.mk.injEq]
                  refine ⟨?_, ?_, trivial⟩
                  · rw [Nat.add_zero, hX, take_at_join, drop_at_join]
                    simp [List.append_assoc]
                  · simp only [List.length_append, List.length_cons, List.length_nil]
                    omega
                · rw [if_neg hcnd] at hm
                  exact absurd hm (by simp)
          | succ rem1 =>
            cases rem1 with
            | succ rem2 => exact absurd hm (by cases ins <;> simp [mergeActions])
            | zero =>
              cases ins with
              | cons c cs => exact absurd hm (by simp [mergeActions])
              | nil =>
                simp only [mergeActions] at hm
                by_cases hcnd : pos + 1 = pos0 + ins0.length
                · rw [if_pos hcnd] at hm
                  obtain ⟨hbnd, hrm, hbc, hbs⟩ := hCap
                  simp only [applyC, List.append_nil, List.length_append,
                    List.length_take, List.length_drop] at hbnd hrm hbc hbs
                  cases ins0 with
                  | cons i0 irest =>
                    obtain rfl := Option.some.inj hm
                    simp only [List.length_cons] at hcnd
                    refine ⟨⟨hb0, hrm0, hbc0, hbs0⟩, ?_⟩
                    simp only [applyC, Core.mk.injEq]
                    have hX : pos = (c0.buffer.take pos0).length + irest.length := by
                      rw [hP]
                      omega
                    have hX1 : pos + 1 =
                        (c0.buffer.take pos0).length + (i0 :: irest).length := by
                      rw [hP, List.length_cons]
                      omega
                    refine ⟨?_, ?_, trivial⟩
                    · rw [hX1, drop_at_join,
                        List.append_assoc (c0.buffer.take pos0) (i0 :: irest)
                          (c0.buffer.drop (pos0 + rem0)),
                        hX, take_append_plus,
                        take_append_le _ _ _ (by simp), List.dropLast_eq_take]
                      simp
                    · simp only [List.length_dropLast, List.length_cons,
                        List.length_nil]
                      omega
                  | nil =>
                    obtain rfl := Option.some.inj hm
                    simp only [List.length_nil, Nat.add_zero] at hcnd
                    simp only [List.append_nil] at hrm hbnd
                    have hpos0 : pos0 = pos + 1 := hcnd.symm
                    have hposB : pos + 1 ≤ c0.buffer.length := by omega
                    have hMd : (c0.buffer.take pos0 ++
                        c0.buffer.drop (pos0 + rem0)).drop pos =
                        (c0.buffer.drop pos).take 1 ++
                          c0.buffer.drop (pos0 + rem0) := by
                      rw [drop_append_le _ _ pos (by omega), List.drop_take]
                      congr 2
                      omega
                    have h1len : 1 ≤ ((c0.buffer.drop pos).take 1).length := by
                      simp only [List.length_take, List.length_drop]
                      omega
                    refine ⟨?_, ?_⟩
                    · refine ⟨by omega, ?_, hbc0, hbs0⟩
                      rw [hrm, hMd, take_append_le _ _ 1 h1len, List.take_take,
                        min_self, hrm0, show rem0 + 1 = 1 + rem0 by omega,
                        List.take_add]
                      congr 2
                      rw [List.drop_drop]
                      congr 1
                    · simp only [applyC, Core.mk.injEq, List.append_nil]
                      have htk : (c0.buffer.take pos0 ++
                          c0.buffer.drop (pos0 + rem0)).take pos =
                          c0.buffer.take pos := by
                        rw [take_append_le _ _ pos (by omega), List.take_take,
                          Nat.min_eq_left (by omega)]
                      have hdr : (c0.buffer.take pos0 ++
                          c0.buffer.drop (pos0 + rem0)).drop (pos + 1) =
                          c0.buffer.drop (pos + (rem0 + 1)) := by
                        rw [show pos + 1 = (c0.buffer.take pos0).length from by omega,
                          drop_append_self]
                        congr 1
                        omega
                      refine ⟨?_, trivial, trivial⟩
                      rw [htk, hdr]
                · rw [if_neg hcnd] at hm
                  exact absurd hm (by simp)

/-! ### The undo-stack invariant -/

/-- `ChainTo stack base cur`: undoing the actions of `stack` in order
steps the document state from `cur` back to `base`; every stack entry
is consistently captured for the state it was applied to. -/
def ChainTo : List Action → Core → Core → Prop
  | [], base, cur => base = cur
  | a :: rest, base, cur =>
    ∃ mid, CapturedOK a mid ∧ applyC a mid = cur ∧ ChainTo rest base mid

/-- Caller-side requests for the five reversible variants of claim C1
(the parameters the editor passes when constructing an action). -/
inductive Req where
  | replace (pos rem : Nat) (ins : List Nat) (canMerge : Bool)
  | indent (b e : Nat)
  | unindent (b e : Nat)
  | comment (b e : Nat)
  | replaceAll (positions key repl : List Nat)
deriving DecidableEq

/-- Construct the captured action for a request against a document
(mirroring the action constructors called by the editor). -/
def mkAction (d : Document) : Req → Action
  | .replace pos rem ins cm => mkSimple d pos rem (some ins) cm
  | .indent b e => mkIndent d b e
  | .unindent b e => mkUnindent d b e
  | .comment b e => mkComment d b e
  | .replaceAll ps key repl => mkReplaceAll d ps key repl

def reqCanMerge : Req → Bool
  | .replace _ _ _ cm => cm
  | _ => true

def executeReq (r : Req) (d : Document) : Document :=
  execute (mkAction d r) (reqCanMerge r) d

def execAll : List Req → Document → Document
  | [], d => d
  | r :: rs, d => execAll rs (executeReq r d)

/-- Well-formedness of a request against the document it executes on:
in-range offsets, ascending disjoint in-range replace-all positions, a
newline-free comment marker. -/
def ReqValidB (d : Document) : Req → Bool
  | .replace pos rem _ _ => decide (pos + rem ≤ d.buffer.length)
  | .indent _ _ => true
  | .unindent _ _ => true
  | .comment _ _ => decide (10 ∉ d.marker.getD [])
  | .replaceAll ps key _ => raValidB key.length 0 ps d.buffer.length

def SeqValidB : List Req → Document → Bool
  | [], _ => true
  | r :: rs, d => ReqValidB d r && SeqValidB rs (executeReq r d)

theorem mkAction_capturedOK (d : Document) (r : Req)
    (h : ReqValidB d r = true) : CapturedOK (mkAction d r) d.core := by
  cases r with
  | replace pos rem ins cm =>
    simp only [ReqValidB, decide_eq_true_eq] at h
    exact ⟨h, rfl, rfl, rfl⟩
  | indent b e => exact ⟨rfl, rfl⟩
  | unindent b e => exact ⟨rfl, rfl, rfl⟩
  | comment b e =>
    simp only [ReqValidB, decide_eq_true_eq] at h
    exact ⟨h, rfl, rfl⟩
  | replaceAll ps key repl =>
    simp only [ReqValidB] at h
    exact ⟨h, rfl, rfl, rfl⟩

theorem core_execute (a : Action) (cm : Bool) (d : Document) :
    (execute a cm d).core = applyC a d.core := by
  cases a <;> rfl

theorem stack_execute (a : Action) (cm : Bool) (d : Document) :
    (execute a cm d).undoStack =
      match cm, d.undoStack with
      | true, prev :: rest =>
        (match mergeActions prev a with
         | some m => m :: rest
         | none => a :: d.undoStack)
      | _, _ => a :: d.undoStack := rfl

/-- Executing a consistently captured action preserves the undo-stack
invariant, whether it merges or pushes. -/
theorem execute_chain (a : Action) (cm : Bool) (d : Document) (base : Core)
    (hc : ChainTo d.undoStack base d.core) (hCap : CapturedOK a d.core) :
    ChainTo (execute a cm d).undoStack base (execute a cm d).core ∧
      (execute a cm d).undoStack.length ≤ d.undoStack.length + 1 := by
  rw [core_execute, stack_execute]
  cases cm with
  | false => exact ⟨⟨d.core, hCap, rfl, hc⟩, by simp⟩
  | true =>
    cases hs : d.undoStack with
    | nil =>
      rw [hs] at hc
      exact ⟨⟨d.core, hCap, rfl, hc⟩, by simp⟩
    | cons prev rest =>
      rw [hs] at hc
      obtain ⟨mid, hCapPrev, hAppPrev, hcrest⟩ := hc
      cases hmrg : mergeActions prev a with
      | none =>
        simp only [hmrg]
        exact ⟨⟨d.core, hCap, rfl, mid, hCapPrev, hAppPrev, hcrest⟩, by simp⟩
      | some m =>
        simp only [hmrg]
        obtain ⟨hCapM, hAppM⟩ := merge_ok prev a m mid d.core hCapPrev hAppPrev hCap hmrg
        exact ⟨⟨mid, hCapM, hAppM, hcrest⟩, by simp⟩

theorem execAll_chain (rs : List Req) (d : Document) (base : Core)
    (hc : ChainTo d.undoStack base d.core) (hv : SeqValidB rs d = true) :
    ChainTo (execAll rs d).undoStack base (execAll rs d).core ∧
      (execAll rs d).undoStack.length ≤ d.undoStack.length + rs.length := by
  induction rs generalizing d with
  | nil => exact ⟨hc, by simp [execAll]⟩
  | cons r rs ih =>
    simp only [SeqValidB, Bool.and_eq_true] at hv
    have hCap := mkAction_capturedOK d r hv.1
    have hstep := execute_chain (mkAction d r) (reqCanMerge r) d base hc hCap
    have := ih (executeReq r d) hstep.1 hv.2
    refine ⟨this.1, ?_⟩
    have h1 := this.2
    have h2 := hstep.2
    simp only [executeReq] at h1 h2
    simp only [execAll, executeReq, List.length_cons]
    omega

theorem undo_empty (d : Document) (h : d.undoStack = []) : undo d = (none, d) := by
  simp [undo, h]

theorem undo_cons (d : Document) (a : Action) (rest : List Action)
    (h : d.undoStack = a :: rest) :
    (undo d).1 = some a ∧
      (undo d).2.core = invertC a d.core ∧
      (undo d).2.undoStack = rest ∧
      (undo d).2.redoStack = a :: d.redoStack := by
  refine ⟨?_, ?_, ?_, ?_⟩ <;> simp only [undo, h]
  rfl

theorem redo_cons (d : Document) (a : Action) (rest : List Action)
    (h : d.redoStack = a :: rest) :
    (redo d).1 = some a ∧
      (redo d).2.core = applyC a d.core ∧
      (redo d).2.undoStack = a :: d.undoStack ∧
      (redo d).2.redoStack = rest := by
  refine ⟨?_, ?_, ?_, ?_⟩ <;> simp only [redo, h]
  rfl

/-- Undoing at least as many times as there are history entries steps
the state back to the base of the chain. -/
theorem undoN_chain (n : Nat) (d : Document) (base : Core)
    (hc : ChainTo d.undoStack base d.core) (hn : d.undoStack.length ≤ n) :
    (undoN n d).core = base := by
  induction n generalizing d with
  | zero =>
    have h0 : d.undoStack = [] := by
      cases h : d.undoStack with
      | nil => rfl
      | cons a rest => rw [h] at hn; simp at hn
    rw [h0] at hc
    exact hc.symm ▸ rfl
  | succ n ih =>
    cases h : d.undoStack with
    | nil =>
      rw [h] at hc
      have : undo d = (none, d) := undo_empty d h
      simp only [undoN, this]
      exact ih d (by rw [h]; exact hc) (by rw [h]; simp)
    | cons a rest =>
      rw [h] at hc
      obtain ⟨mid, hCapA, hAppA, hcrest⟩ := hc
      obtain ⟨_, hcore, hstack, _⟩ := undo_cons d a rest h
      have hinv : (undo d).2.core = mid := by
        rw [hcore, ← hAppA, invertC_applyC a mid hCapA]
      simp only [undoN]
      refine ih (undo d).2 ?_ ?_
      · rw [hstack, hinv]
        exact hcrest
      · rw [hstack]
        rw [h] at hn
        simpa using Nat.le_of_succ_le_succ (by simpa using hn)

/-! ### Claim C1 -/

/-- C1 (amended): for every sequence of N well-formed
Replace/Indent/Unindent/Comment/ReplaceAll actions executed on a
Document whose undo history is initially empty, calling undo() N times
restores the buffer contents, the cursor offset and the selection to
exactly their values before the first action (adjacent typing actions
may merge into one history entry, and the surplus undo() calls are
no-ops on the emptied history); moreover undo pops the original action
— not a second inverse — onto the redo stack, so that redo() reapplies
it directly, restoring the post-execution buffer, cursor and
selection. -/
theorem c1_undo_roundtrip (rs : List Req) (d : Document)
    (h0 : d.undoStack = []) (hv : SeqValidB rs d = true) :
    ((undoN rs.length (execAll rs d)).buffer = d.buffer ∧
     (undoN rs.length (execAll rs d)).cursor = d.cursor ∧
     (undoN rs.length (execAll rs d)).selection = d.selection) ∧
    (∀ a rest, (execAll rs d).undoStack = a :: rest →
      (undo (execAll rs d)).1 = some a ∧
      (undo (execAll rs d)).2.redoStack = a :: (execAll rs d).redoStack ∧
      (redo (undo (execAll rs d)).2).2.buffer = (execAll rs d).buffer ∧
      (redo (undo (execAll rs d)).2).2.cursor = (execAll rs d).cursor ∧
      (redo (undo (execAll rs d)).2).2.selection = (execAll rs d).selection ∧
      (redo (undo (execAll rs d)).2).2.undoStack = (execAll rs d).undoStack) := by
  have hbase : ChainTo d.undoStack d.core d.core := by
    rw [h0]
    exact rfl
  obtain ⟨hch, hlen⟩ := execAll_chain rs d d.core hbase hv
  constructor
  · have hn : (execAll rs d).undoStack.length ≤ rs.length := by
      rw [h0] at hlen
      simpa using hlen
    have hfin := undoN_chain rs.length (execAll rs d) d.core hch hn
    exact ⟨congrArg Core.buffer hfin, congrArg Core.cursor hfin,
      congrArg Core.selection hfin⟩
  · intro a rest hs
    rw [hs] at hch
    obtain ⟨mid, hCapA, hAppA, _⟩ := hch
    obtain ⟨h1, h2, h3, h4⟩ := undo_cons (execAll rs d) a rest hs
    obtain ⟨r1, r2, r3, r4⟩ :=
      redo_cons (undo (execAll rs d)).2 a ((execAll rs d).redoStack) h4
    have hmidcore : (undo (execAll rs d)).2.core = mid := by
      rw [h2, ← hAppA, invertC_applyC a mid hCapA]
    have hfin : (redo (undo (execAll rs d)).2).2.core = (execAll rs d).core := by
      rw [r2, hmidcore, hAppA]
    refine ⟨h1, h4, congrArg Core.buffer hfin, congrArg Core.cursor hfin,
      congrArg Core.selection hfin, ?_⟩
    rw [r3, h3, hs]

/-- Concrete document and action sequence exercising all five variants
for the C1 witness: one-character replace, indent, unindent, comment,
multi-position replace. -/
def docC1 : Document :=
  ⟨some [35], [97, 98, 10, 99, 100], 1, none, [], [], false⟩

def reqsC1 : List Req :=
  [.replace 1 1 [120] true, .indent 0 2, .unindent 1 2, .comment 0 1,
   .replaceAll [1] [9] [32, 32, 32, 32]]

theorem c1_undo_roundtrip_witness :
    docC1.undoStack = [] ∧ SeqValidB reqsC1 docC1 = true ∧
    ((undoN reqsC1.length (execAll reqsC1 docC1)).buffer = docC1.buffer ∧
     (undoN reqsC1.length (execAll reqsC1 docC1)).cursor = docC1.cursor ∧
     (undoN reqsC1.length (execAll reqsC1 docC1)).selection = docC1.selection) :=
  ⟨rfl, by decide, (c1_undo_roundtrip reqsC1 docC1 rfl (by decide)).1⟩

/-- Document with one preexisting (non-mergeable) history entry: the
state after pasting "z" into an empty document. -/
def docC1pre : Document :=
  ⟨none, [122], 1, none, [Action.simple 0 0 [122] false [] 0 none], [], false⟩

/-- Typing "a" then "b" — the second keystroke merges into the first's
history entry. -/
def reqsC1pre : List Req :=
  [.replace 1 0 [97] true, .replace 2 0 [98] true]

/-- C1 as stated is false for a Document with preexisting undo history:
two valid typing actions merge into one history entry, so the second of
the two undo() calls pops a pre-sequence entry and the state before the
first action is not restored. -/
theorem c1_counterexample :
    SeqValidB reqsC1pre docC1pre = true ∧
    (undoN reqsC1pre.length (execAll reqsC1pre docC1pre)).buffer ≠
      docC1pre.buffer := by decide

/-! ### Claim C5 — coordinate round trip -/

/-- C5: for every document and every valid offset p (0 ≤ p ≤ size),
`setPosition(p)` followed by reading (row, col) and calling
`setCoordinates(row, col)` on a fresh Iterator yields pos == p, and the
row/column pair always agrees with the derived line-start index
(lineStart(row) + col == p). -/
theorem c5_coordinate_roundtrip (b : List Nat) (p : Nat) (hp : p ≤ b.length) :
    (setCoordinates b (setPosition b p).row (setPosition b p).col).pos = p ∧
      lineStart b (setPosition b p).row + (setPosition b p).col = p := by
  constructor
  · rw [setCoordinates_setPosition b p hp]
    rfl
  · have h2 := lineStart_le_of_rowOf b p hp
    simp only [setPosition, colOf]
    omega

theorem c5_coordinate_roundtrip_witness :
    3 ≤ [97, 10, 98, 99].length ∧
      ((setCoordinates [97, 10, 98, 99] (setPosition [97, 10, 98, 99] 3).row
          (setPosition [97, 10, 98, 99] 3).col).pos = 3 ∧
        lineStart [97, 10, 98, 99] (setPosition [97, 10, 98, 99] 3).row +
          (setPosition [97, 10, 98, 99] 3).col = 3) :=
  ⟨by decide, c5_coordinate_roundtrip [97, 10, 98, 99] 3 (by decide)⟩

/-! ### Claim C7 — read-only mode blocks every mutating handler -/

/-- C7: while the editor is read-only, every event handler that could
mutate the document (typing input, Tab/Backspace/Delete/Enter, cut,
paste, undo, redo, toggle comment, replace, replace-all) returns with
the document — buffer, cursor, selection, undo stack and redo stack —
entirely unchanged.  (The Document model itself takes no read-only
input at all: the check lives only in the editor's handlers.) -/
theorem c7_readonly_blocks_mutation (ev : EditorEvent) (d : Document) :
    handleEvent true ev d = d := by
  cases ev <;>
    simp [handleEvent, onInputInsertText, onKeyTab, onKeyBackspace, onKeyDelete,
      onKeyEnter, onCut, onPaste, onKeyUndo, onKeyRedo, onKeyToggleComment,
      onReplace, onReplaceAll]

/-! ### Claim C8 — selection collapsing is done by the editor, not the Document -/

def docC8 : Document := ⟨none, [97, 98], 0, none, [], [], false⟩

/-- C8 as stated is false: the editor's own pointer-start handler (a
plain field assignment, no Document selection-setting operation is
involved) produces a state whose stored selection anchor is non-null
and equal to the cursor. -/
theorem c8_counterexample :
    (onPointerStart false 1 docC8).selection =
        some (onPointerStart false 1 docC8).cursor ∧
      (onPointerStart false 1 docC8).selection ≠ none := by decide

/-- C8 (amended): collapsing a selection anchor equal to the cursor to
"no selection" is performed by the editor's pointer-finish handler (the
caller), not by the Document: after `onPointerFinish` the stored
selection never equals the cursor, while between pointer start and
finish the state selection == cursor with a non-null anchor does
occur. -/
theorem c8_pointer_finish_collapses (d : Document) (pos : Nat) :
    (onPointerFinish pos d).selection ≠
      some (onPointerFinish pos d).cursor := by
  simp only [onPointerFinish]
  cases hs : d.selection with
  | none => simp [hs]
  | some s =>
    by_cases hsp : s = pos
    · simp [hs, hsp]
    · simp [hs, hsp]

theorem c8_pointer_finish_collapses_witness :
    (onPointerFinish 1 docC8).selection ≠
      some (onPointerFinish 1 docC8).cursor :=
  c8_pointer_finish_collapses docC8 1

/-! ### Claim C9 — toggle comment without a line-comment marker -/

/-- C9: if the document's language defines no line-comment marker, the
toggle-comment command is a no-op — no Comment or Uncomment action is
constructed or executed, and buffer, undo history, cursor and selection
are all unchanged. -/
theorem c9_toggle_comment_no_marker (d : Document) (ro : Bool)
    (h : d.marker = none) : onKeyToggleComment ro d = d := by
  cases ro with
  | true => simp [onKeyToggleComment]
  | false => simp [onKeyToggleComment, h]

theorem c9_toggle_comment_no_marker_witness :
    docC8.marker = none ∧ onKeyToggleComment false docC8 = docC8 :=
  ⟨rfl, c9_toggle_comment_no_marker docC8 false rfl⟩

/-! ### Claim C10 — change descriptor passed by the undo key branch -/

/-- C10: when the undo key command pops a SimpleAction, the changed
event receives that action's linesChanged descriptor with the inserted
and removed line counts swapped (line unchanged); when it pops any
other action kind, or the history is empty, it receives null. -/
theorem c10_undo_change_event (d : Document) :
    (∀ a, (undo d).1 = some a → a.isSimple = true →
      onKeyUndoChangeArg d = (linesChanged a (undo d).2).map
        (fun ch => ⟨ch.line, ch.removed, ch.inserted⟩)) ∧
    (∀ a, (undo d).1 = some a → a.isSimple = false →
      onKeyUndoChangeArg d = none) ∧
    ((undo d).1 = none → onKeyUndoChangeArg d = none) := by
  refine ⟨?_, ?_, ?_⟩
  · intro a ha hsimp
    cases a with
    | simple pos rem ins mg rt bc bs =>
      simp [onKeyUndoChangeArg, ha, linesChanged, Action.isSimple]
    | indent b e bc bs => simp [Action.isSimple] at hsimp
    | unindent b e rp bc bs => simp [Action.isSimple] at hsimp
    | comment b e m bc bs => simp [Action.isSimple] at hsimp
    | uncomment b e m rp bc bs => simp [Action.isSimple] at hsimp
    | replaceAll ps k r rts bc bs => simp [Action.isSimple] at hsimp
  · intro a ha hsimp
    simp [onKeyUndoChangeArg, ha, hsimp]
  · intro ha
    simp [onKeyUndoChangeArg, ha]

def docC10 : Document :=
  ⟨none, [97, 98], 2, none, [Action.simple 0 0 [97, 98] true [] 0 none], [], true⟩

theorem c10_undo_change_event_witness :
    (undo docC10).1 = some (Action.simple 0 0 [97, 98] true [] 0 none) ∧
      (Action.simple 0 0 [97, 98] true [] 0 none).isSimple = true ∧
      onKeyUndoChangeArg docC10 =
        (linesChanged (Action.simple 0 0 [97, 98] true [] 0 none)
            (undo docC10).2).map
          (fun ch => ⟨ch.line, ch.removed, ch.inserted⟩) :=
  ⟨rfl, rfl, (c10_undo_change_event docC10).1
    (Action.simple 0 0 [97, 98] true [] 0 none) rfl rfl⟩

/-! ### Claim C4 — ReplaceAll -/

def docC4 : Document := ⟨none, [97, 45, 97, 45, 97], 0, none, [], [], false⟩

theorem mergeActions_second_not_simple (prev : Action) (ps key repl : List Nat)
    (rts : List (List Nat)) (bc : Nat) (bs : Option Nat) :
    mergeActions prev (.replaceAll ps key repl rts bc bs) = none := by
  cases prev <;> simp [mergeActions]

/-- C4: ReplaceAll applies one fixed-length removal plus fixed
replacement at the list of disjoint ascending offsets collected from
the unmutated document, translating each later offset by the cumulative
length delta of earlier replacements (the `raApply` delta mechanism);
the whole operation is a single undo step: it pushes exactly one
history entry (or does nothing when no occurrence exists), and on
"a-a-a" replacing "a" by "aa" yields "aa-aa-aa" whose single undo()
restores "a-a-a", the cursor and the selection exactly. -/
theorem c4_replace_all :
    (∀ (d : Document) (key repl : List Nat) (ic : Bool),
      onReplaceAll false key repl ic d = d ∨
        (onReplaceAll false key repl ic d).undoStack.length =
          d.undoStack.length + 1) ∧
    (onReplaceAll false [97] [97, 97] false docC4).buffer =
        [97, 97, 45, 97, 97, 45, 97, 97] ∧
    (onReplaceAll false [97] [97, 97] false docC4).undoStack.length = 1 ∧
    (undo (onReplaceAll false [97] [97, 97] false docC4)).2.buffer =
        [97, 45, 97, 45, 97] ∧
    (undo (onReplaceAll false [97] [97, 97] false docC4)).2.cursor = 0 ∧
    (undo (onReplaceAll false [97] [97, 97] false docC4)).2.selection = none := by
  refine ⟨?_, by decide, by decide, by decide, by decide, by decide⟩
  intro d key repl ic
  by_cases hpos : (collectGo d key ic (d.size + 1) 0).isEmpty = true
  · left
    simp [onReplaceAll, hpos]
  · right
    have h1 : onReplaceAll false key repl ic d =
        execute (mkReplaceAll d (collectGo d key ic (d.size + 1) 0) key repl)
          true d := by
      simp [onReplaceAll, hpos]
    rw [h1, stack_execute]
    cases hs : d.undoStack with
    | nil => simp
    | cons prev rest => simp [mergeActions_second_not_simple, mkReplaceAll]

/-! ### Claim C6 — trivial Unindent -/

theorem collectIdx_eq_map (f : List Nat → List Nat) (b e : Nat) :
    ∀ (i : Nat) (ls : List (List Nat)),
      collectIdx f b e i ls = (collectIdx (fun l => l) b e i ls).map f := by
  intro i ls
  induction ls generalizing i with
  | nil => rfl
  | cons l ls ih =>
    by_cases h : b ≤ i ∧ i < e <;> simp [collectIdx, h, ih]

/-- C6: over a line range in which no line has removable leading
whitespace, the Unindent action reports trivial() == true and the
editor's shift+Tab handler skips execution entirely, leaving the
document — buffer and undo history included — unchanged. -/
theorem c6_unindent_trivial (d : Document)
    (h : ∀ l ∈ collectIdx (fun l => l) (selectedLines d).1 (selectedLines d).2 0
        (lines d.buffer), (unindentLine l).1 = []) :
    (mkUnindent d (selectedLines d).1 (selectedLines d).2).trivial = true ∧
      onKeyTab false true d = d := by
  have htr : (mkUnindent d (selectedLines d).1 (selectedLines d).2).trivial = true := by
    simp only [mkUnindent, Action.trivial]
    rw [collectIdx_eq_map (fun l => (unindentLine l).1) (selectedLines d).1
      (selectedLines d).2 0 (lines d.buffer), List.all_map, List.all_eq_true]
    intro l hl
    simp [Function.comp, h l hl]
  refine ⟨htr, ?_⟩
  have h2 : onKeyTab false true d =
      (if (mkUnindent d (selectedLines d).1 (selectedLines d).2).trivial = true
       then d
       else execute (mkUnindent d (selectedLines d).1 (selectedLines d).2)
         true d) := rfl
  rw [h2, if_pos htr]

def docC6 : Document := ⟨none, [97, 10, 98], 0, none, [], [], false⟩

theorem c6_unindent_trivial_witness :
    (∀ l ∈ collectIdx (fun l => l) (selectedLines docC6).1
        (selectedLines docC6).2 0 (lines docC6.buffer),
      (unindentLine l).1 = []) ∧
    ((mkUnindent docC6 (selectedLines docC6).1 (selectedLines docC6).2).trivial
        = true ∧
      onKeyTab false true docC6 = docC6) :=
  ⟨by decide, c6_unindent_trivial docC6 (by decide)⟩

/-! ### Claim C3 — search -/

theorem range'_find?_some (pb : Nat → Bool) (n : Nat) :
    ∀ (lo x : Nat), (List.range' lo n).find? pb = some x →
      pb x = true ∧ lo ≤ x ∧ x < lo + n ∧
        ∀ y, lo ≤ y → y < x → pb y = false := by
  induction n with
  | zero => intro lo x h; simp [List.range'] at h
  | succ n ih =>
    intro lo x h
    rw [List.range'_succ] at h
    by_cases hplo : pb lo = true
    · rw [List.find?_cons_of_pos _ hplo] at h
      obtain rfl := Option.some.inj h
      exact ⟨hplo, Nat.le_refl lo, by omega,
        fun y h1 h2 => absurd h1 (by omega)⟩
    · rw [List.find?_cons_of_neg _ (by simp [hplo])] at h
      obtain ⟨h1, h2, h3, h4⟩ := ih (lo + 1) x h
      refine ⟨h1, by omega, by omega, ?_⟩
      intro y hy1 hy2
      rcases Nat.eq_or_lt_of_le hy1 with rfl | hy3
      · exact Bool.eq_false_iff.mpr hplo
      · exact h4 y hy3 hy2

theorem range'_find?_none (pb : Nat → Bool) (lo n : Nat)
    (h : (List.range' lo n).find? pb = none) :
    ∀ y, lo ≤ y → y < lo + n → pb y = false := by
  intro y h1 h2
  have hmem : y ∈ List.range' lo n := by
    rw [List.mem_range'_1]
    exact ⟨h1, h2⟩
  have := List.find?_eq_none.1 h y hmem
  simpa using this

/-- Document holding the buffer "ababab", used for the C3 example. -/
def docC3 : Document := ⟨none, [97, 98, 97, 98, 97, 98], 0, none, [], [], false⟩

/-- C3 as stated is self-contradictory: "ab" occurs at offset 4 of
"ababab", so a find that returns the first occurrence at or after
fromPos must return 4 for fromPos = 4, with or without wrapping — not
0 and not null as the claim's example demands. -/
theorem c3_counterexample :
    occursAt docC3.buffer [97, 98] false 4 = true ∧
      find docC3 4 [97, 98] false true = some 4 ∧
      find docC3 4 [97, 98] false false = some 4 := by decide

/-- C3 (amended): `find(fromPos, key, ignoreCase, forwardWrap)` returns
the first occurrence of the key at or after fromPos; when forwardWrap
is true and no match exists before end-of-buffer it continues from
offset 0 up to but not including fromPos; it returns null whenever the
key is empty or no match exists in the searched ranges.  On buffer
"ababab": find(4, "ab", false, _) = 4 (an occurrence starts at fromPos
itself), while from fromPos = 5 the wrap case of the claim's example
holds: find(5, "ab", false, true) = 0 and find(5, "ab", false, false)
= null. -/
theorem c3_find_spec :
    (∀ (d : Document) (fromPos : Nat) (key : List Nat) (ic w : Bool),
      (key = [] → find d fromPos key ic w = none) ∧
      (∀ p, find d fromPos key ic w = some p →
        occursAt d.buffer key ic p = true ∧
        (fromPos ≤ p →
          ∀ q, fromPos ≤ q → q < p → occursAt d.buffer key ic q = false) ∧
        (p < fromPos →
          w = true ∧
          (∀ q, fromPos ≤ q → q < d.buffer.length →
            occursAt d.buffer key ic q = false) ∧
          (∀ q, q < p → occursAt d.buffer key ic q = false))) ∧
      (find d fromPos key ic w = none → key ≠ [] →
        (∀ q, fromPos ≤ q → q < d.buffer.length →
          occursAt d.buffer key ic q = false) ∧
        (w = true → ∀ q, q < fromPos → occursAt d.buffer key ic q = false))) ∧
    find docC3 4 [97, 98] false true = some 4 ∧
    find docC3 5 [97, 98] false true = some 0 ∧
    find docC3 5 [97, 98] false false = none := by
  refine ⟨?_, by decide, by decide, by decide⟩
  intro d fromPos key ic w
  by_cases hk : key = []
  · refine ⟨fun _ => by simp [find, hk], ?_, ?_⟩
    · intro p hp
      rw [show find d fromPos key ic w = none by simp [find, hk]] at hp
      cases hp
    · intro _ hk2
      exact absurd hk hk2
  · have hke : key.isEmpty = false := by
      cases key with
      | nil => exact absurd rfl hk
      | cons c cs => rfl
    refine ⟨fun hcon => absurd hcon hk, ?_, ?_⟩
    · intro p hp
      simp only [find, hke, Bool.false_eq_true, if_false] at hp
      cases hf1 : findIn d.buffer key ic fromPos d.buffer.length with
      | some p1 =>
        rw [hf1] at hp
        obtain rfl := Option.some.inj hp
        obtain ⟨h1, h2, h3, h4⟩ :=
          range'_find?_some (occursAt d.buffer key ic) _ fromPos p1 hf1
        exact ⟨h1, fun _ q hq1 hq2 => h4 q hq1 hq2,
          fun hlt => absurd h2 (by omega)⟩
      | none =>
        rw [hf1] at hp
        cases w with
        | false => simp at hp
        | true =>
          simp only [if_pos rfl] at hp
          obtain ⟨h1, h2, h3, h4⟩ :=
            range'_find?_some (occursAt d.buffer key ic) _ 0 p hp
          have hnone := range'_find?_none (occursAt d.buffer key ic) fromPos
            (d.buffer.length - fromPos) hf1
          refine ⟨h1, ?_, ?_⟩
          · intro hfp q hq1 hq2
            exact hnone q hq1 (by omega)
          · intro hlt
            exact ⟨rfl, fun q hq1 hq2 => hnone q hq1 (by omega),
              fun q hq => h4 q (Nat.zero_le q) hq⟩
    · intro hn _
      simp only [find, hke, Bool.false_eq_true, if_false] at hn
      cases hf1 : findIn d.buffer key ic fromPos d.buffer.length with
      | some p1 => rw [hf1] at hn; cases hn
      | none =>
        have hnone := range'_find?_none (occursAt d.buffer key ic) fromPos
          (d.buffer.length - fromPos) hf1
        refine ⟨fun q hq1 hq2 => hnone q hq1 (by omega), ?_⟩
        intro hw q hq
        rw [hf1, hw] at hn
        simp only [if_pos rfl] at hn
        have hnone2 := range'_find?_none (occursAt d.buffer key ic) 0 fromPos hn
        exact hnone2 q (Nat.zero_le q) (by omega)

theorem c3_find_spec_witness :
    occursAt docC3.buffer [97, 98] false 0 = true ∧
      (0 < 5 → true = true ∧
        (∀ q, 5 ≤ q → q < docC3.buffer.length →
          occursAt docC3.buffer [97, 98] false q = false) ∧
        (∀ q, q < 0 → occursAt docC3.buffer [97, 98] false q = false)) :=
  ⟨((c3_find_spec.1 docC3 5 [97, 98] false true).2.1 0 (by decide)).1,
    ((c3_find_spec.1 docC3 5 [97, 98] false true).2.1 0 (by decide)).2.2⟩

/-! ### Claim C2 — typing-run coalescing -/

/-- One keystroke of a typing run: a single-character insertion (the
editor's insertText input path) or a backspace. -/
inductive TypeStep where
  | ins (c : Nat)
  | back
deriving DecidableEq

def runStep : TypeStep → Document → Document
  | .ins c, d => onInputInsertText false [c] d
  | .back, d => onKeyBackspace false d

def runSteps : List TypeStep → Document → Document
  | [], d => d
  | st :: sts, d => runSteps sts (runStep st d)

/-- A typing run is valid when every inserted character is not a
newline and every backspace happens with the cursor past offset 0. -/
def runValidB : List TypeStep → Document → Bool
  | [], _ => true
  | .ins c :: sts, d => decide (c ≠ 10) && runValidB sts (runStep (.ins c) d)
  | .back :: sts, d => decide (0 < d.cursor) && runValidB sts (runStep .back d)

/-- A word typed character by character. -/
def insRun (w : List Nat) : List TypeStep := w.map TypeStep.ins

/-- The top of the undo stack does not accept merges (empty stack, or a
non-mergeable action such as a paste). -/
def topBlocksMergeB (d : Document) : Bool :=
  match d.undoStack with
  | [] => true
  | a :: _ => !a.canMerge

/-- Invariant of a typing run in progress: the whole run so far is one
mergeable SimpleAction on top of the pre-run stack, the cursor sits at
the end of the run's insertion, and nothing is selected. -/
def RunInv (d : Document) (rest : List Action) : Prop :=
  ∃ pos0 rem0 ins0 rm0 bc bs,
    d.undoStack = Action.simple pos0 rem0 ins0 true rm0 bc bs :: rest ∧
    d.cursor = pos0 + ins0.length ∧ d.selection = none

theorem canMerge_false_no_merge (prev a : Action) (h : prev.canMerge = false) :
    mergeActions prev a = none := by
  cases prev with
  | simple pos0 rem0 ins0 mg0 rm0 bc0 bs0 =>
    simp only [Action.canMerge] at h
    subst h
    rfl
  | indent b e bc bs => rfl
  | unindent b e rp bc bs => rfl
  | comment b e m bc bs => rfl
  | uncomment b e m rp bc bs => rfl
  | replaceAll ps k r rts bc bs => rfl

theorem execute_push_stack (a : Action) (d : Document) :
    (execute a false d).undoStack = a :: d.undoStack := rfl

theorem execute_blocked_stack (a : Action) (d : Document)
    (hb : topBlocksMergeB d = true) :
    (execute a true d).undoStack = a :: d.undoStack := by
  rw [stack_execute]
  cases hs : d.undoStack with
  | nil => rfl
  | cons prev rest =>
    have hcm : prev.canMerge = false := by
      rw [topBlocksMergeB, hs] at hb
      simpa using hb
    simp only [canMerge_false_no_merge prev a hcm]

/-- The state-shape of a single-character insertion via the editor's
simpleAction, with no selection. -/
theorem insStep_eq (c : Nat) (d : Document) (hsel : d.selection = none) :
    runStep (.ins c) d =
      execute (Action.simple d.cursor 0 [c] true
        ((d.buffer.drop d.cursor).take 0) d.cursor none) true d := by
  simp [runStep, onInputInsertText, simpleAction, hsel, mkSimple]

/-- The state-shape of a backspace via the editor's Backspace branch,
with no selection and the cursor past 0. -/
theorem backStep_eq (d : Document) (hsel : d.selection = none)
    (hcur : 0 < d.cursor) :
    runStep .back d =
      execute (Action.simple (d.cursor - 1) 1 []
        true ((d.buffer.drop (d.cursor - 1)).take 1) d.cursor
        (some (d.cursor - 1)))
        true { d with selection := some (d.cursor - 1) } := by
  have hmin : min d.cursor (d.cursor - 1) = d.cursor - 1 :=
    Nat.min_eq_right (Nat.sub_le _ _)
  have hmax : max d.cursor (d.cursor - 1) = d.cursor :=
    Nat.max_eq_left (Nat.sub_le _ _)
  have hone : d.cursor - (d.cursor - 1) = 1 := by omega
  simp [runStep, onKeyBackspace, hsel, hcur, simpleAction, mkSimple, hmin,
    hmax, hone]

theorem execute_merge_stack (a prev m : Action) (rest : List Action)
    (d : Document) (hs : d.undoStack = prev :: rest)
    (hm : mergeActions prev a = some m) :
    (execute a true d).undoStack = m :: rest := by
  rw [stack_execute, hs]
  simp only [hm]

theorem execute_nomerge_stack (a prev : Action) (rest : List Action)
    (d : Document) (hs : d.undoStack = prev :: rest)
    (hm : mergeActions prev a = none) :
    (execute a true d).undoStack = a :: prev :: rest := by
  rw [stack_execute, hs]
  simp only [hm]

theorem ins_step_inv (c : Nat) (hc : c ≠ 10) (d : Document)
    (rest : List Action) (hinv : RunInv d rest) :
    RunInv (runStep (.ins c) d) rest := by
  obtain ⟨pos0, rem0, ins0, rm0, bc, bs, hstack, hcur, hsel⟩ := hinv
  rw [insStep_eq c d hsel]
  have hm : mergeActions (Action.simple pos0 rem0 ins0 true rm0 bc bs)
      (Action.simple d.cursor 0 [c] true
        ((d.buffer.drop d.cursor).take 0) d.cursor none) =
      some (Action.simple pos0 rem0 (ins0 ++ [c]) true rm0 bc bs) := by
    simp only [mergeActions]
    rw [if_pos ⟨hc, hcur⟩]
  refine ⟨pos0, rem0, ins0 ++ [c], rm0, bc, bs, ?_, ?_, rfl⟩
  · exact execute_merge_stack _ _ _ rest d hstack hm
  · show d.cursor + 1 = pos0 + (ins0 ++ [c]).length
    simp only [List.length_append, List.length_cons, List.length_nil]
    omega

theorem back_step_inv (d : Document) (rest : List Action)
    (hcur0 : 0 < d.cursor) (hinv : RunInv d rest) :
    RunInv (runStep .back d) rest := by
  obtain ⟨pos0, rem0, ins0, rm0, bc, bs, hstack, hcur, hsel⟩ := hinv
  rw [backStep_eq d hsel hcur0]
  cases ins0 with
  | nil =>
    have hm : mergeActions (Action.simple pos0 rem0 [] true rm0 bc bs)
        (Action.simple (d.cursor - 1) 1 [] true
          ((d.buffer.drop (d.cursor - 1)).take 1) d.cursor
          (some (d.cursor - 1))) =
        some (Action.simple (d.cursor - 1) (rem0 + 1) [] true
          ((d.buffer.drop (d.cursor - 1)).take 1 ++ rm0) bc bs) := by
      simp only [mergeActions]
      rw [if_pos (by simp only [List.length_nil] at hcur ⊢; omega)]
    refine ⟨d.cursor - 1, rem0 + 1, [],
      (d.buffer.drop (d.cursor - 1)).take 1 ++ rm0, bc, bs, ?_, rfl, rfl⟩
    exact execute_merge_stack _ _ _ rest _ hstack hm
  | cons i0 irest =>
    have hm : mergeActions (Action.simple pos0 rem0 (i0 :: irest) true rm0 bc bs)
        (Action.simple (d.cursor - 1) 1 [] true
          ((d.buffer.drop (d.cursor - 1)).take 1) d.cursor
          (some (d.cursor - 1))) =
        some (Action.simple pos0 rem0 ((i0 :: irest).dropLast) true rm0 bc bs) := by
      simp only [mergeActions]
      rw [if_pos (by simp only [List.length_cons] at hcur ⊢; omega)]
    refine ⟨pos0, rem0, (i0 :: irest).dropLast, rm0, bc, bs, ?_, ?_, rfl⟩
    · exact execute_merge_stack _ _ _ rest _ hstack hm
    · show d.cursor - 1 + 0 = pos0 + ((i0 :: irest).dropLast).length
      have hL : ((i0 :: irest).dropLast).length = irest.length := by
        simp [List.length_dropLast]
      simp only [List.length_cons] at hcur
      omega

theorem runSteps_inv (sts : List TypeStep) (d : Document) (rest : List Action)
    (hv : runValidB sts d = true) (hinv : RunInv d rest) :
    RunInv (runSteps sts d) rest := by
  induction sts generalizing d with
  | nil => exact hinv
  | cons st sts ih =>
    cases st with
    | ins c =>
      simp only [runValidB, Bool.and_eq_true, decide_eq_true_eq] at hv
      exact ih _ hv.2 (ins_step_inv c hv.1 d rest hinv)
    | back =>
      simp only [runValidB, Bool.and_eq_true, decide_eq_true_eq] at hv
      exact ih _ hv.2 (back_step_inv d rest hv.1 hinv)

theorem first_step_inv (st : TypeStep) (d : Document)
    (hsel : d.selection = none) (hb : topBlocksMergeB d = true)
    (hcur : st = .back → 0 < d.cursor) :
    RunInv (runStep st d) d.undoStack := by
  cases st with
  | ins c =>
    rw [insStep_eq c d hsel]
    refine ⟨d.cursor, 0, [c], (d.buffer.drop d.cursor).take 0, d.cursor, none,
      ?_, rfl, rfl⟩
    exact execute_blocked_stack _ d hb
  | back =>
    rw [backStep_eq d hsel (hcur rfl)]
    refine ⟨d.cursor - 1, 1, [], (d.buffer.drop (d.cursor - 1)).take 1,
      d.cursor, some (d.cursor - 1), ?_, rfl, rfl⟩
    exact execute_blocked_stack _ _ hb

theorem run_single_entry (st : TypeStep) (sts : List TypeStep) (d : Document)
    (hsel : d.selection = none) (hb : topBlocksMergeB d = true)
    (hv : runValidB (st :: sts) d = true) :
    RunInv (runSteps (st :: sts) d) d.undoStack := by
  have hfirst : RunInv (runStep st d) d.undoStack := by
    apply first_step_inv st d hsel hb
    intro hst
    subst hst
    simp only [runValidB, Bool.and_eq_true, decide_eq_true_eq] at hv
    exact hv.1
  have htail : runValidB sts (runStep st d) = true := by
    cases st <;>
      (simp only [runValidB, Bool.and_eq_true] at hv; exact hv.2)
  exact runSteps_inv sts (runStep st d) d.undoStack htail hfirst

theorem runValidB_insRun (w : List Nat) (d : Document)
    (hw : ∀ c ∈ w, c ≠ 10) : runValidB (insRun w) d = true := by
  induction w generalizing d with
  | nil => rfl
  | cons c w ih =>
    simp only [insRun, List.map_cons, runValidB, Bool.and_eq_true,
      decide_eq_true_eq]
    exact ⟨hw c (by simp), ih _ (fun x hx => hw x (by simp [hx]))⟩

/-- A nonempty paste pushes exactly one new, non-mergeable undo entry
and leaves no selection (translated from `Editor.onPaste`,
editor.ts:1357, which passes canMerge = false). -/
theorem onPaste_pushes (s : List Nat) (hsne : s ≠ []) (d : Document) :
    (onPaste false s d).undoStack.length = d.undoStack.length + 1 ∧
      topBlocksMergeB (onPaste false s d) = true ∧
      (onPaste false s d).selection = none := by
  have hlen : decide (s.length > 0) = true :=
    decide_eq_true (List.length_pos.mpr hsne)
  have hred : onPaste false s d =
      execute (mkSimple d
        (match d.selection with | none => d.cursor | some s' => min d.cursor s')
        (match d.selection with
         | none => 0
         | some s' => max d.cursor s' - min d.cursor s')
        (some s) false) false d := by
    simp [onPaste, simpleAction, hlen, hsne]
  refine ⟨?_, ?_, ?_⟩
  · rw [hred, execute_push_stack]
    rfl
  · rw [hred]
    simp [topBlocksMergeB, execute_push_stack, mkSimple, Action.canMerge]
  · rw [hred]
    rfl

/-- C2: Typing single characters one at a time — each a one-character
insertion or a one-character backward deletion adjacent to the previous
edit's resulting cursor — coalesces the whole run into exactly one undo
entry (i); an edit inserting a newline does not merge into the run but
starts a fresh entry (ii); a mergeable single-character insertion at a
non-adjacent position does not merge either (iii); and typing a word,
pasting, then typing another word from a fresh document yields exactly
three undo entries — two for the typed words, one for the paste (iv). -/
theorem c2_typing_coalescing :
    (∀ (st : TypeStep) (sts : List TypeStep) (d : Document),
       d.selection = none → topBlocksMergeB d = true →
       runValidB (st :: sts) d = true →
       (runSteps (st :: sts) d).undoStack.length = d.undoStack.length + 1) ∧
    (∀ (st : TypeStep) (sts : List TypeStep) (d : Document),
       d.selection = none → topBlocksMergeB d = true →
       runValidB (st :: sts) d = true →
       (onInputInsertText false [10] (runSteps (st :: sts) d)).undoStack.length =
         d.undoStack.length + 2) ∧
    (∀ (st : TypeStep) (sts : List TypeStep) (d : Document),
       d.selection = none → topBlocksMergeB d = true →
       runValidB (st :: sts) d = true →
       ∀ (p c' : Nat) (rm : List Nat) (bc' : Nat) (bs' : Option Nat),
         p ≠ (runSteps (st :: sts) d).cursor →
         (execute (Action.simple p 0 [c'] true rm bc' bs') true
           (runSteps (st :: sts) d)).undoStack.length =
           d.undoStack.length + 2) ∧
    (∀ (w1 s w2 : List Nat) (d : Document),
       w1 ≠ [] → s ≠ [] → w2 ≠ [] →
       (∀ c ∈ w1, c ≠ 10) → (∀ c ∈ w2, c ≠ 10) →
       d.selection = none → d.undoStack = [] →
       (runSteps (insRun w2)
         (onPaste false s (runSteps (insRun w1) d))).undoStack.length = 3) := by
  refine ⟨?_, ?_, ?_, ?_⟩
  · intro st sts d hsel hb hv
    obtain ⟨p0, r0, i0, rm0, bc, bs, hst, -, -⟩ :=
      run_single_entry st sts d hsel hb hv
    rw [hst]
    rfl
  · intro st sts d hsel hb hv
    obtain ⟨p0, r0, i0, rm0, bc, bs, hst, -, hsel2⟩ :=
      run_single_entry st sts d hsel hb hv
    have hstep : onInputInsertText false [10] (runSteps (st :: sts) d) =
        runStep (.ins 10) (runSteps (st :: sts) d) := rfl
    rw [hstep, insStep_eq 10 (runSteps (st :: sts) d) hsel2]
    have hm : mergeActions (Action.simple p0 r0 i0 true rm0 bc bs)
        (Action.simple (runSteps (st :: sts) d).cursor 0 [10] true
          (((runSteps (st :: sts) d).buffer.drop
            (runSteps (st :: sts) d).cursor).take 0)
          (runSteps (st :: sts) d).cursor none) = none := by
      simp only [mergeActions]
      rw [if_neg (fun h => h.1 rfl)]
    rw [execute_nomerge_stack _ _ _ (runSteps (st :: sts) d) hst hm]
    rfl
  · intro st sts d hsel hb hv p c' rm bc' bs' hp
    obtain ⟨p0, r0, i0, rm0, bc, bs, hst, hcurR, -⟩ :=
      run_single_entry st sts d hsel hb hv
    have hm : mergeActions (Action.simple p0 r0 i0 true rm0 bc bs)
        (Action.simple p 0 [c'] true rm bc' bs') = none := by
      simp only [mergeActions]
      rw [if_neg (fun h => hp (h.2.trans hcurR.symm))]
    rw [execute_nomerge_stack _ _ _ (runSteps (st :: sts) d) hst hm]
    rfl
  · intro w1 s w2 d hw1ne hsne hw2ne hw1 hw2 hsel hstk
    cases w1 with
    | nil => exact absurd rfl hw1ne
    | cons c1 w1' =>
      cases w2 with
      | nil => exact absurd rfl hw2ne
      | cons c2 w2' =>
        have hb0 : topBlocksMergeB d = true := by
          simp [topBlocksMergeB, hstk]
        have hv1 : runValidB (TypeStep.ins c1 :: insRun w1') d = true := by
          have := runValidB_insRun (c1 :: w1') d hw1
          simpa [insRun] using this
        obtain ⟨p0, r0, i0, rm0, bc0, bs0, hst1, -, hsel1⟩ :=
          run_single_entry (.ins c1) (insRun w1') d hsel hb0 hv1
        have hlen1 : (runSteps (TypeStep.ins c1 :: insRun w1') d).undoStack =
            [Action.simple p0 r0 i0 true rm0 bc0 bs0] := by
          rw [hst1, hstk]
        obtain ⟨hplen, hptop, hpsel⟩ :=
          onPaste_pushes s hsne (runSteps (TypeStep.ins c1 :: insRun w1') d)
        have hv2 : runValidB (TypeStep.ins c2 :: insRun w2')
            (onPaste false s (runSteps (TypeStep.ins c1 :: insRun w1') d)) = true := by
          have := runValidB_insRun (c2 :: w2')
            (onPaste false s (runSteps (TypeStep.ins c1 :: insRun w1') d)) hw2
          simpa [insRun] using this
        obtain ⟨p1, r1, i1, rm1, bc1, bs1, hst2, -, -⟩ :=
          run_single_entry (.ins c2) (insRun w2') _ hpsel hptop hv2
        have e1 : insRun (c1 :: w1') = TypeStep.ins c1 :: insRun w1' := rfl
        have e2 : insRun (c2 :: w2') = TypeStep.ins c2 :: insRun w2' := rfl
        rw [e1, e2, hst2]
        simp only [List.length_cons]
        rw [hplen, hlen1]
        rfl

def docC2 : Document := ⟨none, [97, 98, 99], 1, none, [], [], false⟩

/-- Witness for C2 at concrete inputs: typing h, i, Backspace on a
fresh document yields one undo entry; a newline after typing h yields
two; a non-adjacent mergeable insertion after typing h yields two; and
word–paste–word yields exactly three. -/
theorem c2_typing_coalescing_witness :
    (runSteps [TypeStep.ins 104, TypeStep.ins 105, TypeStep.back]
        docC2).undoStack.length = 1 ∧
    (onInputInsertText false [10]
        (runSteps [TypeStep.ins 104] docC2)).undoStack.length = 2 ∧
    (execute (Action.simple 0 0 [120] true [] 0 none) true
        (runSteps [TypeStep.ins 104] docC2)).undoStack.length = 2 ∧
    (runSteps (insRun [119, 50])
        (onPaste false [32] (runSteps (insRun [104, 105]) docC2))).undoStack.length = 3 :=
  ⟨c2_typing_coalescing.1 (.ins 104) [.ins 105, .back] docC2 rfl rfl (by decide),
   c2_typing_coalescing.2.1 (.ins 104) [] docC2 rfl rfl (by decide),
   c2_typing_coalescing.2.2.1 (.ins 104) [] docC2 rfl rfl (by decide)
     0 120 [] 0 none (by decide),
   c2_typing_coalescing.2.2.2 [104, 105] [32] [119, 50] docC2 (by decide)
     (by decide) (by decide) (by decide) (by decide) rfl rfl⟩

end TextDoc
